import Mathlib

/-!
Held–Karp solver: a verification development.

A shallow embedding of `src/adjacency_matrix.hpp`, `src/graph.hpp` and
`src/graph.cpp`, followed by theorems about it.

Modelling conventions.

* `std::size_t` values (sizes, indices, subset masks) are natural numbers: the
  vectors are as large as the code asks for, and no size or index computation
  wraps.
* `std::uint32_t` values are natural numbers; the one arithmetic operation on
  them, the addition in `shortest_path`, is reduced modulo `2 ^ 32`.
* `1U << k` is a shift of a 32-bit `unsigned int`: it is defined only for
  `k < 32`.
* A failed `assert`, an undefined operation and a thrown exception are the ways
  a call can fail; they are the constructors of `failure`.
* `parse_from` reads a seekable stream (a file); the stream is its text. The
  locale is the "C" locale and `unsigned long` has 64 bits. The node count that
  `parse_from` computes in double precision is modelled by the exact value of
  the expression.
-/

set_option linter.dupNamespace false

namespace bhk

/-- The ways in which a call can fail. -/
inductive failure where
  /-- A failed `assert`: a precondition violation. -/
  | assertion : failure
  /-- Undefined behaviour: a shift by at least the width of the operand, or a
  vector access outside the vector. -/
  | undefined : failure
  /-- A thrown `std::runtime_error`, with its message. -/
  | runtime_error (what : String) : failure
  /-- A thrown `std::out_of_range` (from `std::stoul`). -/
  | out_of_range : failure
  deriving DecidableEq, Repr

deriving instance DecidableEq for Except

/-- The value of `std::numeric_limits<std::uint32_t>::max()`. -/
def UINT32_MAX : Nat := 2 ^ 32 - 1

/-- The value of `sizeof(std::size_t) * CHAR_BIT` (a 64-bit `std::size_t`). -/
def size_t_bits : Nat := 64

/-- The expression `1U << k`: a left shift of the 32-bit constant `1U`,
undefined when the shift count is not below the width of the operand. -/
def shl1U (k : Nat) : Except failure Nat :=
  if k < 32 then .ok ((1 <<< k) % 2 ^ 32) else .error .undefined

/-! ## `adjacency_matrix` -/

/-- The class `adjacency_matrix`: its two data members. -/
structure adjacency_matrix where
  /-- The member `_node_count`. -/
  _node_count : Nat
  /-- The member `_matrix`, a `std::vector<std::uint32_t>`. -/
  _matrix : List Nat
  deriving DecidableEq, Repr

namespace adjacency_matrix

/-- The constructor `adjacency_matrix(node_count)`: a value-initialised
(all zero) vector of `node_count * node_count` entries. -/
def adjacency_matrix (node_count : Nat) : adjacency_matrix :=
  { _node_count := node_count, _matrix := List.replicate (node_count * node_count) 0 }

/-- The private member function `index_at(row, column)` with its two
assertions. -/
def index_at (m : bhk.adjacency_matrix) (row column : Nat) : Except failure Nat :=
  if ¬ row < m._node_count then .error .assertion
  else if ¬ column < m._node_count then .error .assertion
  else .ok (row * m._node_count + column)

/-- The member function `get(a, b)`: `return _matrix[index_at(a, b)]`. -/
def get (m : bhk.adjacency_matrix) (a b : Nat) : Except failure Nat :=
  match m.index_at a b with
  | .error e => .error e
  | .ok i =>
    match m._matrix[i]? with
    | some v => .ok v
    | none => .error .undefined

/-- The assignment `_matrix[i] = distance`. -/
def store (m : bhk.adjacency_matrix) (i distance : Nat) : Except failure bhk.adjacency_matrix :=
  if i < m._matrix.length then .ok { m with _matrix := m._matrix.set i distance }
  else .error .undefined

/-- The member function `update(a, b, distance)`: two assignments, each
through `index_at`. The result is the outcome of the call together with the
matrix as the call leaves it. -/
def update (m : bhk.adjacency_matrix) (a b distance : Nat) :
    Except failure Unit × bhk.adjacency_matrix :=
  match m.index_at a b with
  | .error e => (.error e, m)
  | .ok i =>
    match m.store i distance with
    | .error e => (.error e, m)
    | .ok m1 =>
      match m1.index_at b a with
      | .error e => (.error e, m1)
      | .ok j =>
        match m1.store j distance with
        | .error e => (.error e, m1)
        | .ok m2 => (.ok (), m2)

/-- A sequence of `update` calls, each given as `(a, b, distance)`, run in
order; the run stops at the first call that fails. -/
def updates (m : bhk.adjacency_matrix) :
    List (Nat × Nat × Nat) → Except failure Unit × bhk.adjacency_matrix
  | [] => (.ok (), m)
  | (a, b, distance) :: rest =>
    match m.update a b distance with
    | (.ok _, m1) => updates m1 rest
    | (.error e, m1) => (.error e, m1)

end adjacency_matrix

/-! ## `graph` -/

/-- The class `graph`: its two data members. -/
structure graph where
  /-- The member `_nodes`. -/
  _nodes : List String
  /-- The member `_distance`. -/
  _distance : adjacency_matrix
  deriving DecidableEq, Repr

namespace graph

/-- The constructor `graph(nodes, distances)`: it throws when there are more
nodes than bits in a `std::size_t`. -/
def graph (nodes : List String) (distances : adjacency_matrix) : Except failure graph :=
  if nodes.length > size_t_bits then
    .error (.runtime_error "can only track as many nodes as bits in std::size_t")
  else .ok { _nodes := nodes, _distance := distances }

/-- The bounds assertions and the index computation of the lambda
`lowest_cost(set, last)` in `shortest_path`. -/
def lowest_cost_index (node_subsets node_count set last : Nat) : Except failure Nat :=
  if ¬ set < node_subsets then .error .assertion
  else if ¬ last < node_count then .error .assertion
  else .ok (set * node_count + last)

/-- A read through `lowest_cost(set, last)`. -/
def lowest_cost (lowest_costs : List Nat) (node_subsets node_count set last : Nat) :
    Except failure Nat :=
  match lowest_cost_index node_subsets node_count set last with
  | .error e => .error e
  | .ok index =>
    match lowest_costs[index]? with
    | some v => .ok v
    | none => .error .undefined

/-- An assignment through `lowest_cost(set, last)`. -/
def lowest_cost_assign (lowest_costs : List Nat) (node_subsets node_count set last value : Nat) :
    Except failure (List Nat) :=
  match lowest_cost_index node_subsets node_count set last with
  | .error e => .error e
  | .ok index =>
    if index < lowest_costs.length then .ok (lowest_costs.set index value)
    else .error .undefined

/-- The body of the innermost loop of `shortest_path` (over `previous_node`). -/
def previous_node_body (g : bhk.graph) (node_subsets node_count set node previous_set : Nat)
    (lowest_costs : List Nat) (previous_node : Nat) : Except failure (List Nat) := do
  let previous_node_bit ← shl1U previous_node
  if previous_set &&& previous_node_bit = 0 then
    pure lowest_costs
  else
    let preceding_cost ← lowest_cost lowest_costs node_subsets node_count previous_set previous_node
    let cost ← g._distance.get previous_node node
    let total_cost := (preceding_cost + cost) % 2 ^ 32
    let best ← lowest_cost lowest_costs node_subsets node_count set node
    lowest_cost_assign lowest_costs node_subsets node_count set node (min best total_cost)

/-- The body of the middle loop of `shortest_path` (over `node`). -/
def node_body (g : bhk.graph) (node_subsets node_count set : Nat)
    (lowest_costs : List Nat) (node : Nat) : Except failure (List Nat) := do
  let node_bit ← shl1U node
  if set &&& node_bit = 0 then
    pure lowest_costs
  else
    let previous_set := set ^^^ node_bit
    if previous_set = 0 then
      lowest_cost_assign lowest_costs node_subsets node_count set node 0
    else
      (List.range node_count).foldlM
        (previous_node_body g node_subsets node_count set node previous_set) lowest_costs

/-- The body of the outer loop of `shortest_path` (over `set`). -/
def set_body (g : bhk.graph) (node_subsets node_count : Nat)
    (lowest_costs : List Nat) (set : Nat) : Except failure (List Nat) :=
  (List.range node_count).foldlM (node_body g node_subsets node_count set) lowest_costs

/-- The cost table as `shortest_path` leaves it when its loops finish. -/
def cost_table (g : bhk.graph) : Except failure (List Nat) := do
  let node_count := g._nodes.length
  let node_subsets ← shl1U node_count
  let lowest_costs := List.replicate (node_subsets * node_count) UINT32_MAX
  (List.range' 1 (node_subsets - 1)).foldlM (set_body g node_subsets node_count) lowest_costs

/-- The member function `shortest_path()`. -/
def shortest_path (g : bhk.graph) : Except failure Nat := do
  let node_count := g._nodes.length
  let node_subsets ← shl1U node_count
  let lowest_costs ← cost_table g
  let all_nodes := node_subsets - 1
  lowest_cost lowest_costs node_subsets node_count all_nodes 0

/-- The value of
`ceil((1.0 + sqrt(1.0 + 4.0 * 2.0 * edge_count)) / 2.0)`, the expression being
taken exactly: with `s` the integer square root of `1 + 8 * edge_count`, the
square root is `s` when `s * s = 1 + 8 * edge_count` and lies strictly between
`s` and `s + 1` otherwise. -/
def inferred_node_count (edge_count : Nat) : Nat :=
  if Nat.sqrt (1 + 8 * edge_count) * Nat.sqrt (1 + 8 * edge_count) = 1 + 8 * edge_count then
    (1 + Nat.sqrt (1 + 8 * edge_count) + 1) / 2
  else
    (1 + Nat.sqrt (1 + 8 * edge_count)) / 2 + 1

/-- The lines that repeated calls of `std::getline` extract from a text:
`current` holds, in reverse, the characters of the line being read. A last
line without a line break is extracted too, unless it is empty. -/
def getlines (current : List Char) : List Char → List (List Char)
  | [] => if current = [] then [] else [current.reverse]
  | c :: rest =>
    if c = '\n' then current.reverse :: getlines [] rest
    else getlines (c :: current) rest

/-- The character class `\w`. -/
def word_char (c : Char) : Bool :=
  c.isAlphanum || c == '_'

/-- The call `std::regex_match(line, capture_groups, pattern)` for the pattern
`(\w+) to (\w+) = (\d+)`: the three capture groups when the whole line
matches. As neither a blank nor `=` is a word character, each `\w+` can only
match a maximal run of word characters. -/
def regex_match (line : List Char) : Option (String × String × String) :=
  match line.span word_char with
  | ([], _) => none
  | (origin, ' ' :: 't' :: 'o' :: ' ' :: rest) =>
    match rest.span word_char with
    | ([], _) => none
    | (endpoint, ' ' :: '=' :: ' ' :: digits) =>
      if digits ≠ [] ∧ digits.all Char.isDigit = true then
        some (String.mk origin, String.mk endpoint, String.mk digits)
      else none
    | _ => none
  | _ => none

/-- The call `std::stoul(distance_str)` on a string of decimal digits: its
value, or `std::out_of_range` when the value does not fit an `unsigned long`. -/
def stoul (distance_str : String) : Except failure Nat :=
  if distance_str.toList.foldl (fun value c => 10 * value + (c.toNat - 48)) 0 < 2 ^ 64 then
    .ok (distance_str.toList.foldl (fun value c => 10 * value + (c.toNat - 48)) 0)
  else .error .out_of_range

/-- The local variables of `parse_from` that its loop changes. The set
`unique_nodes` is a list of its members, the map `id_for_node` a list of its
key-value pairs. -/
structure parse_state where
  /-- The variable `distances`. -/
  distances : adjacency_matrix
  /-- The variable `nodes`. -/
  nodes : List String
  /-- The variable `unique_nodes`. -/
  unique_nodes : List String
  /-- The variable `id_for_node`. -/
  id_for_node : List (String × Nat)
  deriving DecidableEq, Repr

/-- The statement `if (auto [it, inserted] = unique_nodes.insert(name); inserted)`
with its body: a new name is appended to `nodes` and mapped to its index. -/
def insert_node (st : parse_state) (name : String) : parse_state :=
  if name ∈ st.unique_nodes then st
  else
    { st with
      unique_nodes := name :: st.unique_nodes
      nodes := st.nodes ++ [name]
      id_for_node := (name, (st.nodes ++ [name]).length - 1) :: st.id_for_node }

/-- The read `id_for_node[name]`: the mapped index, zero for a missing key. -/
def id_of (st : parse_state) (name : String) : Nat :=
  (st.id_for_node.lookup name).getD 0

/-- The body of the loop of `parse_from`, for one extracted line. -/
def parse_line (st : parse_state) (line : List Char) : Except failure parse_state :=
  match regex_match line with
  | none => .error (.runtime_error ("could not parse line: " ++ String.mk line))
  | some (origin, endpoint, distance_str) =>
    match stoul distance_str with
    | .error e => .error e
    | .ok value =>
      match (insert_node (insert_node st origin) endpoint).distances.update
          (id_of (insert_node (insert_node st origin) endpoint) origin)
          (id_of (insert_node (insert_node st origin) endpoint) endpoint)
          (value % 2 ^ 32) with
      | (.ok _, distances) =>
        .ok { insert_node (insert_node st origin) endpoint with distances := distances }
      | (.error e, _) => .error e

/-- The static member function `parse_from(input)`. -/
def parse_from (input : String) : Except failure bhk.graph :=
  if input.toList.count '\n' = 0 then
    .error (.runtime_error
      "invalid input: could not determine graph edges as no line breaks were detected")
  else
    match (getlines [] input.toList).foldlM parse_line
        { distances :=
            adjacency_matrix.adjacency_matrix
              (inferred_node_count (input.toList.count '\n') + 1)
          nodes := [""]
          unique_nodes := []
          id_for_node := [] } with
    | .error e => .error e
    | .ok st => graph st.nodes st.distances

end graph

/-! ## Specification-side definitions -/

namespace adjacency_matrix

/-- The class invariant of `adjacency_matrix`: the vector holds
`_node_count * _node_count` entries. -/
def valid (m : bhk.adjacency_matrix) : Prop :=
  m._matrix.length = m._node_count * m._node_count

instance (m : bhk.adjacency_matrix) : Decidable m.valid := by
  unfold valid
  infer_instance

/-- The entry of the vector at the flat index of `(a, b)`, as a total function
(zero outside the vector). -/
def entry (m : bhk.adjacency_matrix) (a b : Nat) : Nat :=
  (m._matrix[a * m._node_count + b]?).getD 0

end adjacency_matrix

namespace graph

/-- The entry of the cost table at `(set, last)`, as a total function (zero
outside the vector). -/
def cell (lowest_costs : List Nat) (node_count set last : Nat) : Nat :=
  (lowest_costs[set * node_count + last]?).getD 0

/-- The minimum of `init` and of the values `f m` for the members `m < n` of
the subset with mask `s`, taken in the order of the loop. -/
def min_over (n s : Nat) (f : Nat → Nat) (init : Nat) : Nat :=
  (List.range n).foldl (fun best m => if s.testBit m then min best (f m) else best) init

/-- The right-hand side of the recurrence of the cost table at `(set, node)`,
read off a table `lowest_costs`: zero for a singleton, and otherwise the
minimum, from `UINT32_MAX`, over the members `m` of `set` without `node`, of
the entry at `(set without node, m)` plus `get(m, node)` in 32-bit
arithmetic. -/
def recurrence (g : bhk.graph) (lowest_costs : List Nat) (set node : Nat) : Nat :=
  if set ^^^ 2 ^ node = 0 then 0
  else min_over g._nodes.length (set ^^^ 2 ^ node)
    (fun m => (cell lowest_costs g._nodes.length (set ^^^ 2 ^ node) m +
      g._distance.entry m node) % 2 ^ 32) UINT32_MAX

/-- The pairs `(S, k)` that the loops have completed when the outer loop is at
`set = s` and the middle loop at `node = j`. -/
def done (s j S k : Nat) : Prop :=
  S.testBit k = true ∧ (S < s ∨ (S = s ∧ k < j))

/-- The invariant of the loops of `shortest_path`: the table has its size,
every completed entry satisfies the recurrence and every other entry still
holds `UINT32_MAX`. -/
def table_inv (g : bhk.graph) (s j : Nat) (lowest_costs : List Nat) : Prop :=
  lowest_costs.length = 2 ^ g._nodes.length * g._nodes.length ∧
  ∀ S k, S < 2 ^ g._nodes.length → k < g._nodes.length →
    (done s j S k → cell lowest_costs g._nodes.length S k = recurrence g lowest_costs S k) ∧
    (¬ done s j S k → cell lowest_costs g._nodes.length S k = UINT32_MAX)

/-- The cost of walking along a list of nodes: the sum, in the natural numbers,
of the entries `get(x, y)` for the consecutive nodes `x`, `y` of the list. -/
def path_cost (d : bhk.adjacency_matrix) : List Nat → Nat
  | a :: b :: rest => d.entry a b + path_cost d (b :: rest)
  | _ => 0

/-- A list that holds every member of the subset with mask `S` exactly once
and whose first entry is `k`. -/
def tour (S k : Nat) (l : List Nat) : Prop :=
  l.head? = some k ∧ l.Nodup ∧ ∀ x, x ∈ l ↔ S.testBit x = true

/-- The weight `|i - j|` of the edge between the real nodes `i` and `j` of the
line graph. -/
def line_distance (i j : Nat) : Nat :=
  if i ≤ j then j - i else i - j

/-- The distances of the line graph: zero from and to the origin (index 0),
`|i - j|` between the real nodes `i` and `j`. -/
def line_weight (i j : Nat) : Nat :=
  if i = 0 ∨ j = 0 then 0 else line_distance i j

/-- The sum of the line-graph distances between the consecutive nodes of a
visiting order. -/
def order_cost : List Nat → Nat
  | a :: b :: rest => line_distance a b + order_cost (b :: rest)
  | _ => 0

/-- Brute-force enumeration on the line graph with the real nodes `1, ..., N`:
the minimum, over all `N!` visiting orders, of the sum of the distances between
consecutive nodes. -/
def brute_force (N : Nat) : Nat :=
  (((List.range' 1 N).permutations.map order_cost).min?).getD 0

/-- The input of the concrete scenario: three edges between three cities. -/
def london_text : String :=
  "London to Dublin = 464\nLondon to Belfast = 518\nDublin to Belfast = 141\n"

/-- The graph of the concrete scenario: the node list is the origin, London,
Dublin, Belfast; the matrix has size 4 and holds the three edges, its origin
row left unset. -/
def london : bhk.graph :=
  { _nodes := ["", "London", "Dublin", "Belfast"]
    _distance := ((adjacency_matrix.adjacency_matrix 4).updates
      [(1, 2, 464), (1, 3, 518), (2, 3, 141)]).2 }

/-- The graph of two real nodes joined by one edge of weight `w`: the node list
is the origin, A, B; of the matrix, of size 3, only the A-B entry is set. -/
def two_nodes (w : Nat) : bhk.graph :=
  { _nodes := ["", "A", "B"]
    _distance := ((adjacency_matrix.adjacency_matrix 3).update 1 2 w).2 }

/-- A graph of 32 nodes (the origin and 31 unnamed real nodes) on a fresh
matrix of size 32. -/
def thirty_two_nodes : bhk.graph :=
  { _nodes := List.replicate 32 ""
    _distance := adjacency_matrix.adjacency_matrix 32 }

/-- The cost table when the outer loop of `shortest_path` reaches `set = s`:
the sets `1, ..., s - 1` have been processed. -/
def table_at_set (g : bhk.graph) (s : Nat) : Except failure (List Nat) := do
  let node_count := g._nodes.length
  let node_subsets ← shl1U node_count
  let lowest_costs := List.replicate (node_subsets * node_count) UINT32_MAX
  (List.range' 1 (s - 1)).foldlM (set_body g node_subsets node_count) lowest_costs

/-- A graph with one real node at distance 5 from the origin. -/
def origin_edge : bhk.graph :=
  { _nodes := ["", "A"]
    _distance := ((adjacency_matrix.adjacency_matrix 2).update 0 1 5).2 }

/-- Three edges of weight `2 ^ 31` between three real nodes. -/
def heavy_text : String :=
  "A to B = 2147483648\nA to C = 2147483648\nB to C = 2147483648\n"

/-- The graph of three real nodes with every pairwise weight `2 ^ 31` and a
zero origin row. -/
def heavy : bhk.graph :=
  { _nodes := ["", "A", "B", "C"]
    _distance := ((adjacency_matrix.adjacency_matrix 4).updates
      [(1, 2, 2147483648), (1, 3, 2147483648), (2, 3, 2147483648)]).2 }

/-- A graph with an empty node list on an empty matrix. -/
def no_nodes : bhk.graph :=
  { _nodes := []
    _distance := adjacency_matrix.adjacency_matrix 0 }

/-- An access to the cost table through the lambda `lowest_cost`, as recorded
by the instrumented run of `shortest_path`. -/
inductive access where
  /-- The read of `preceding_cost` through
  `lowest_cost(previous_set, previous_node)` in the iteration `(set, node)`,
  with the value read. -/
  | preceding (set node previous_set previous_node value : Nat) : access
  /-- The read of `best` through `lowest_cost(set, node)`, with the value
  read. -/
  | best (set node value : Nat) : access
  /-- An assignment through `lowest_cost(set, node)`, with the value the entry
  held just before and the value stored. -/
  | assign (set node old value : Nat) : access
  /-- The final read `lowest_cost(all_nodes, 0)`, with the value read. -/
  | result (set node value : Nat) : access
  deriving DecidableEq, Repr

/-- The body of the innermost loop, instrumented: next to the table it keeps
the log of the accesses, the most recent first. -/
def previous_node_body_traced (g : bhk.graph)
    (node_subsets node_count set node previous_set : Nat)
    (st : List Nat × List access) (previous_node : Nat) :
    Except failure (List Nat × List access) := do
  let previous_node_bit ← shl1U previous_node
  if previous_set &&& previous_node_bit = 0 then
    pure st
  else
    let preceding_cost ← lowest_cost st.1 node_subsets node_count previous_set previous_node
    let cost ← g._distance.get previous_node node
    let total_cost := (preceding_cost + cost) % 2 ^ 32
    let best ← lowest_cost st.1 node_subsets node_count set node
    let lowest_costs ← lowest_cost_assign st.1 node_subsets node_count set node
      (min best total_cost)
    pure (lowest_costs,
      .assign set node best (min best total_cost) :: .best set node best ::
        .preceding set node previous_set previous_node preceding_cost :: st.2)

/-- The body of the middle loop, instrumented. -/
def node_body_traced (g : bhk.graph) (node_subsets node_count set : Nat)
    (st : List Nat × List access) (node : Nat) : Except failure (List Nat × List access) := do
  let node_bit ← shl1U node
  if set &&& node_bit = 0 then
    pure st
  else
    let previous_set := set ^^^ node_bit
    if previous_set = 0 then
      let lowest_costs ← lowest_cost_assign st.1 node_subsets node_count set node 0
      pure (lowest_costs, .assign set node (cell st.1 node_count set node) 0 :: st.2)
    else
      (List.range node_count).foldlM
        (previous_node_body_traced g node_subsets node_count set node previous_set) st

/-- The body of the outer loop, instrumented. -/
def set_body_traced (g : bhk.graph) (node_subsets node_count : Nat)
    (st : List Nat × List access) (set : Nat) : Except failure (List Nat × List access) :=
  (List.range node_count).foldlM (node_body_traced g node_subsets node_count set) st

/-- The loops of `shortest_path`, instrumented: the final table and the log of
all accesses. -/
def cost_table_traced (g : bhk.graph) : Except failure (List Nat × List access) := do
  let node_count := g._nodes.length
  let node_subsets ← shl1U node_count
  let lowest_costs := List.replicate (node_subsets * node_count) UINT32_MAX
  (List.range' 1 (node_subsets - 1)).foldlM (set_body_traced g node_subsets node_count)
    (lowest_costs, [])

/-- The member function `shortest_path()`, instrumented: the value returned and
the log of all accesses to the cost table, the most recent first. -/
def shortest_path_traced (g : bhk.graph) : Except failure (Nat × List access) := do
  let node_count := g._nodes.length
  let node_subsets ← shl1U node_count
  let st ← cost_table_traced g
  let all_nodes := node_subsets - 1
  let value ← lowest_cost st.1 node_subsets node_count all_nodes 0
  pure (value, .result all_nodes 0 value :: st.2)

/-- The value most recently assigned to the entry `(S, k)` according to a log
(most recent access first), if the log holds an assignment to it. -/
def written : List access → Nat → Nat → Option Nat
  | [], _, _ => none
  | .assign set node _ value :: older, S, k =>
    if set = S ∧ node = k then some value else written older S k
  | .preceding _ _ _ _ _ :: older, S, k => written older S k
  | .best _ _ _ :: older, S, k => written older S k
  | .result _ _ _ :: older, S, k => written older S k

/-- What holds of an access, given the log of the accesses before it: an entry
read as `preceding_cost` or as the result lies in a non-empty set that holds
its node and, for `preceding_cost`, is smaller than the current set, and the
value read is the value most recently assigned to the entry; an assignment
stores at most the value that the entry held, which is the value most recently
assigned to it or else the initial `UINT32_MAX`. -/
def access_ok (older : List access) : access → Prop
  | .preceding set _ previous_set previous_node value =>
    previous_set ≠ 0 ∧ previous_set.testBit previous_node = true ∧ previous_set < set ∧
      written older previous_set previous_node = some value
  | .best set node value => value = (written older set node).getD UINT32_MAX
  | .assign set node old value =>
    value ≤ old ∧ old = (written older set node).getD UINT32_MAX
  | .result set node value =>
    set ≠ 0 ∧ set.testBit node = true ∧ written older set node = some value

/-- Every access of a log (most recent first) is as `access_ok` says. -/
def log_ok : List access → Prop
  | [] => True
  | e :: older => access_ok older e ∧ log_ok older

/-- The invariant of the instrumented loops at `set = s`, `node = j`: the
table has its size and holds, in each entry, the value most recently assigned
or else `UINT32_MAX`; every access so far is as `access_ok` says; and every
completed entry has been assigned. -/
def traced_inv (g : bhk.graph) (s j : Nat) (st : List Nat × List access) : Prop :=
  st.1.length = 2 ^ g._nodes.length * g._nodes.length ∧
  (∀ S k, S < 2 ^ g._nodes.length → k < g._nodes.length →
    cell st.1 g._nodes.length S k = (written st.2 S k).getD UINT32_MAX) ∧
  log_ok st.2 ∧
  ∀ S k, done s j S k → (written st.2 S k).isSome = true

/-- A node name of the input format: a non-empty string of word
characters. -/
def is_name (s : String) : Prop :=
  s.toList ≠ [] ∧ ∀ c ∈ s.toList, word_char c = true

/-- An integer of the input format: a non-empty string of decimal digits. -/
def is_digits (s : String) : Prop :=
  s.toList ≠ [] ∧ ∀ c ∈ s.toList, c.isDigit = true

/-- The number that a string of decimal digits denotes. -/
def digits_value (s : String) : Nat :=
  s.toList.foldl (fun value c => 10 * value + (c.toNat - 48)) 0

/-- The line `origin to endpoint = digits` of an edge, given as the two node
names and the digits of the weight. -/
def render_line (e : String × String × String) : List Char :=
  e.1.toList ++ ' ' :: 't' :: 'o' :: ' ' :: (e.2.1.toList ++ ' ' :: '=' :: ' ' :: e.2.2.toList)

/-- The text of an edge list: one newline-terminated line per edge. -/
def render (edges : List (String × String × String)) : String :=
  String.mk (edges.flatMap (fun e => render_line e ++ ['\n']))

/-- A list of names with one more name, put last if it is new. -/
def add_name (seen : List String) (name : String) : List String :=
  if name ∈ seen then seen else seen ++ [name]

/-- The names of an edge list in first-seen order. -/
def first_seen (edges : List (String × String × String)) : List String :=
  edges.foldl (fun seen e => add_name (add_name seen e.1) e.2.1) []

/-- An edge list that names each unordered pair of the distinct node names
`names` exactly once: every edge joins two different names of the list, every
two different names of the list are joined by an edge, and no two edges join
the same two names. -/
def complete_on (names : List String) (edges : List (String × String × String)) : Prop :=
  names.Nodup ∧
  (∀ e ∈ edges, e.1 ∈ names ∧ e.2.1 ∈ names ∧ e.1 ≠ e.2.1) ∧
  (∀ x ∈ names, ∀ y ∈ names, x ≠ y →
    ∃ e ∈ edges, (e.1 = x ∧ e.2.1 = y) ∨ (e.1 = y ∧ e.2.1 = x)) ∧
  edges.Pairwise (fun e f =>
    ¬ ((e.1 = f.1 ∧ e.2.1 = f.2.1) ∨ (e.1 = f.2.1 ∧ e.2.1 = f.1)))

/-- What the loop of `parse_from` keeps true of `nodes`, `unique_nodes` and
`id_for_node`, given the names `seen` so far in first-seen order: `nodes` is
the origin followed by `seen`, `unique_nodes` holds the names of `seen`, and
`id_for_node` maps each to its index in `nodes`. -/
def names_inv (seen : List String) (st : parse_state) : Prop :=
  st.nodes = "" :: seen ∧
  (∀ x, x ∈ st.unique_nodes ↔ x ∈ seen) ∧
  (∀ x, x ∈ seen → st.id_for_node.lookup x = some (seen.indexOf x + 1)) ∧
  seen.Nodup

/-- What the loop of `parse_from` has established after the edges `done` of a
complete edge list on `N` names: `names_inv`, a matrix of size `N + 1`, and in
the matrix the weight of each edge of `done` at the indices of its names. -/
def edges_inv (N : Nat) (done : List (String × String × String)) (st : parse_state) : Prop :=
  names_inv (first_seen done) st ∧
  st.distances.valid ∧ st.distances._node_count = N + 1 ∧
  ∀ e ∈ done,
    st.distances.entry ((first_seen done).indexOf e.1 + 1)
      ((first_seen done).indexOf e.2.1 + 1) = digits_value e.2.2 % 2 ^ 32

/-- The edge list that names each pair of a list of names once, with the
weight 1: each name with every later one. -/
def complete_edges : List String → List (String × String × String)
  | [] => []
  | x :: rest => rest.map (fun y => (x, y, "1")) ++ complete_edges rest

/-- The names `a`, `aa`, `aaa`, ... : sixty-four of them. -/
def names64 : List String :=
  (List.range 64).map (fun i => String.mk (List.replicate (i + 1) 'a'))

/-- The three edges of the concrete scenario. -/
def london_edges : List (String × String × String) :=
  [("London", "Dublin", "464"), ("London", "Belfast", "518"), ("Dublin", "Belfast", "141")]

end graph

/-! ## Lemmas on `adjacency_matrix` -/

namespace adjacency_matrix

theorem flat_index_lt {n a b : Nat} (ha : a < n) (hb : b < n) : a * n + b < n * n := by
  have h1 : a * n + n ≤ n * n := by
    have : (a + 1) * n ≤ n * n := Nat.mul_le_mul_right n ha
    simpa [Nat.succ_mul] using this
  omega

theorem flat_index_inj {n a b c d : Nat} (hb : b < n) (hd : d < n)
    (h : a * n + b = c * n + d) : a = c ∧ b = d := by
  have hn : 0 < n := by omega
  have h1 : (a * n + b) / n = a := by
    rw [Nat.add_comm, Nat.add_mul_div_right _ _ hn, Nat.div_eq_of_lt hb, Nat.zero_add]
  have h2 : (c * n + d) / n = c := by
    rw [Nat.add_comm, Nat.add_mul_div_right _ _ hn, Nat.div_eq_of_lt hd, Nat.zero_add]
  have hac : a = c := by rw [← h1, ← h2, h]
  subst hac
  exact ⟨rfl, by omega⟩

theorem index_at_ok (m : bhk.adjacency_matrix) {a b : Nat}
    (ha : a < m._node_count) (hb : b < m._node_count) :
    m.index_at a b = .ok (a * m._node_count + b) := by
  simp [index_at, ha, hb]

theorem index_at_error (m : bhk.adjacency_matrix) {a b : Nat}
    (h : ¬ (a < m._node_count ∧ b < m._node_count)) :
    m.index_at a b = .error .assertion := by
  unfold index_at
  by_cases ha : a < m._node_count
  · have hb : ¬ b < m._node_count := fun hb => h ⟨ha, hb⟩
    simp [ha, hb]
  · simp [ha]

theorem get_ok (m : bhk.adjacency_matrix) (hm : m.valid) {a b : Nat}
    (ha : a < m._node_count) (hb : b < m._node_count) :
    m.get a b = .ok (m.entry a b) := by
  have hlt : a * m._node_count + b < m._matrix.length := by
    rw [hm]; exact flat_index_lt ha hb
  simp [get, entry, index_at_ok m ha hb, List.getElem?_eq_getElem hlt]

theorem store_ok (m : bhk.adjacency_matrix) {i : Nat} (hi : i < m._matrix.length) (x : Nat) :
    m.store i x = .ok { m with _matrix := m._matrix.set i x } := by
  simp [store, hi]

theorem update_ok (m : bhk.adjacency_matrix) (hm : m.valid) {a b : Nat}
    (ha : a < m._node_count) (hb : b < m._node_count) (x : Nat) :
    m.update a b x =
      (.ok (), { _node_count := m._node_count,
                 _matrix := (m._matrix.set (a * m._node_count + b) x).set
                   (b * m._node_count + a) x }) := by
  have h1 : a * m._node_count + b < m._matrix.length := by
    rw [hm]; exact flat_index_lt ha hb
  have h2 : b * m._node_count + a < m._matrix.length := by
    rw [hm]; exact flat_index_lt hb ha
  simp [update, index_at, store, ha, hb, h1, h2]

theorem update_valid (m : bhk.adjacency_matrix) (hm : m.valid) {a b : Nat}
    (ha : a < m._node_count) (hb : b < m._node_count) (x : Nat) :
    (m.update a b x).2.valid ∧ (m.update a b x).2._node_count = m._node_count := by
  rw [update_ok m hm ha hb]
  simp [valid, hm] at *
  exact hm

/-- The entries after a successful `update`. -/
theorem entry_update (m : bhk.adjacency_matrix) (hm : m.valid) {a b c d : Nat}
    (ha : a < m._node_count) (hb : b < m._node_count) (hd : d < m._node_count) (x : Nat) :
    (m.update a b x).2.entry c d =
      if (c = a ∧ d = b) ∨ (c = b ∧ d = a) then x else m.entry c d := by
  have h1 : a * m._node_count + b < m._matrix.length := by
    rw [hm]; exact flat_index_lt ha hb
  have h2 : b * m._node_count + a < m._matrix.length := by
    rw [hm]; exact flat_index_lt hb ha
  rw [update_ok m hm ha hb]
  simp only [entry, List.getElem?_set, List.length_set]
  by_cases hba : c = b ∧ d = a
  · obtain ⟨rfl, rfl⟩ := hba
    simp [h2]
  · have hne2 : b * m._node_count + a ≠ c * m._node_count + d := by
      intro h
      have := flat_index_inj ha hd h
      exact hba ⟨this.1.symm, this.2.symm⟩
    by_cases hab : c = a ∧ d = b
    · obtain ⟨rfl, rfl⟩ := hab
      simp [hne2, h1]
    · have hne1 : a * m._node_count + b ≠ c * m._node_count + d := by
        intro h
        have := flat_index_inj hb hd h
        exact hab ⟨this.1.symm, this.2.symm⟩
      simp [hne1, hne2, hab, hba]

theorem adjacency_matrix_valid (n : Nat) : (adjacency_matrix n).valid := by
  simp [valid, adjacency_matrix]

theorem adjacency_matrix_entry (n a b : Nat) : (adjacency_matrix n).entry a b = 0 := by
  simp only [entry, adjacency_matrix, List.getElem?_replicate]
  split <;> rfl

/-- An invariant `P` of the matrix, kept by every in-bounds `update` whose
arguments satisfy `Q`, holds after a run of such updates, and the run
succeeds. -/
theorem updates_inv (n : Nat) (P : bhk.adjacency_matrix → Prop) (Q : Nat → Nat → Nat → Prop)
    (hstep : ∀ (m : bhk.adjacency_matrix) (a b x : Nat), m.valid → m._node_count = n → P m →
      a < n → b < n → Q a b x → P (m.update a b x).2) :
    ∀ (us : List (Nat × Nat × Nat)) (m : bhk.adjacency_matrix), m.valid → m._node_count = n →
      P m → (∀ u ∈ us, u.1 < n ∧ u.2.1 < n ∧ Q u.1 u.2.1 u.2.2) →
      (m.updates us).1 = .ok () ∧ (m.updates us).2.valid ∧
        (m.updates us).2._node_count = n ∧ P (m.updates us).2 := by
  intro us
  induction us with
  | nil =>
    intro m hv hn hp _
    exact ⟨rfl, hv, hn, hp⟩
  | cons u rest ih =>
    intro m hv hn hp hus
    obtain ⟨a, b, x⟩ := u
    obtain ⟨ha, hb, hq⟩ := hus (a, b, x) (List.mem_cons_self _ _)
    simp only at ha hb hq
    have ha' : a < m._node_count := hn ▸ ha
    have hb' : b < m._node_count := hn ▸ hb
    have hu := update_ok m hv ha' hb' x
    have hv1 := update_valid m hv ha' hb' x
    have hp1 := hstep m a b x hv hn hp ha hb hq
    rw [hu] at hv1 hp1
    have hrest := ih _ hv1.1 (hv1.2.trans hn) hp1
      (fun u hu => hus u (List.mem_cons_of_mem _ hu))
    simpa only [updates, hu] using hrest

/-- A matrix reached from a fresh one by in-bounds updates: the run succeeds,
the matrix keeps its size and its entries are symmetric. -/
theorem updates_symmetric (n : Nat) (us : List (Nat × Nat × Nat))
    (hus : ∀ u ∈ us, u.1 < n ∧ u.2.1 < n) :
    ((adjacency_matrix n).updates us).1 = .ok () ∧
    ((adjacency_matrix n).updates us).2.valid ∧
    ((adjacency_matrix n).updates us).2._node_count = n ∧
    ∀ c d, c < n → d < n →
      ((adjacency_matrix n).updates us).2.entry c d =
        ((adjacency_matrix n).updates us).2.entry d c :=
  updates_inv n
    (fun m => ∀ c d, c < n → d < n → m.entry c d = m.entry d c) (fun _ _ _ => True)
    (by
      intro m a b x hv hn hsym ha hb _ c d hc hd
      subst hn
      rw [entry_update m hv ha hb hd, entry_update m hv ha hb hc, hsym c d hc hd]
      by_cases h1 : c = a ∧ d = b <;> by_cases h2 : c = b ∧ d = a <;>
        simp [h1, h2, and_comm, or_comm])
    us (adjacency_matrix n) (adjacency_matrix_valid n) rfl
    (by intro c d _ _; simp [adjacency_matrix_entry])
    (fun u hu => ⟨(hus u hu).1, (hus u hu).2, trivial⟩)

/-- A successful `get` returns the entry at the flat index. -/
theorem get_eq_ok (m : bhk.adjacency_matrix) {a b w : Nat} (h : m.get a b = .ok w) :
    a < m._node_count ∧ b < m._node_count ∧ w = m.entry a b := by
  by_cases hab : a < m._node_count ∧ b < m._node_count
  · refine ⟨hab.1, hab.2, ?_⟩
    unfold get at h
    rw [index_at_ok m hab.1 hab.2] at h
    unfold entry
    cases hx : m._matrix[a * m._node_count + b]? with
    | none => simp [hx] at h
    | some v =>
      simp only [hx] at h
      cases h
      rfl
  · unfold get at h
    rw [index_at_error m hab] at h
    cases h

end adjacency_matrix

/-! ## Bit masks -/

theorem shl1U_ok {k : Nat} (hk : k < 32) : shl1U k = .ok (2 ^ k) := by
  have h : 2 ^ k < 2 ^ 32 := Nat.pow_lt_pow_right (by decide) hk
  unfold shl1U
  rw [if_pos hk, Nat.one_shiftLeft, Nat.mod_eq_of_lt h]

theorem and_two_pow_eq_zero (S k : Nat) : S &&& 2 ^ k = 0 ↔ S.testBit k = false := by
  constructor
  · intro h
    have h1 : (S &&& 2 ^ k).testBit k = false := by rw [h]; simp
    simpa [Nat.testBit_and, Nat.testBit_two_pow_self] using h1
  · intro h
    apply Nat.eq_of_testBit_eq
    intro i
    by_cases hi : k = i
    · subst hi; simp [h]
    · simp [Nat.testBit_two_pow, hi]

theorem testBit_xor_two_pow {S k : Nat} (hk : S.testBit k = true) (m : Nat) :
    (S ^^^ 2 ^ k).testBit m = (S.testBit m && decide (m ≠ k)) := by
  by_cases hm : m = k
  · subst hm; simp [Nat.testBit_two_pow_self, hk]
  · have : ¬ k = m := fun h => hm h.symm
    simp [Nat.testBit_two_pow, hm, this]

theorem xor_two_pow_lt {S k : Nat} (hk : S.testBit k = true) : S ^^^ 2 ^ k < S := by
  apply Nat.lt_of_testBit k
  · simp [testBit_xor_two_pow hk]
  · exact hk
  · intro j hj
    have : j ≠ k := by omega
    simp [testBit_xor_two_pow hk, this]

theorem testBit_lt_of_lt_two_pow {S n k : Nat} (hS : S < 2 ^ n) (hk : S.testBit k = true) :
    k < n := by
  by_contra hc
  have h1 : 2 ^ n ≤ 2 ^ k := Nat.pow_le_pow_right (by decide) (by omega)
  have h2 := Nat.testBit_lt_two_pow (Nat.lt_of_lt_of_le hS h1)
  rw [h2] at hk
  cases hk

/-! ## Loops -/

/-- A loop over `0, ..., n - 1` whose body keeps an invariant runs to its end
and establishes the invariant at `n`. -/
theorem foldlM_range_inv {σ : Type} (body : σ → Nat → Except failure σ)
    (I : Nat → σ → Prop) (n : Nat)
    (hstep : ∀ i s, i < n → I i s → ∃ s', body s i = .ok s' ∧ I (i + 1) s')
    (s0 : σ) (h0 : I 0 s0) :
    ∃ s', (List.range n).foldlM body s0 = .ok s' ∧ I n s' := by
  suffices h : ∀ j, j ≤ n → ∃ s', (List.range j).foldlM body s0 = .ok s' ∧ I j s' from
    h n le_rfl
  intro j
  induction j with
  | zero => intro _; exact ⟨s0, rfl, h0⟩
  | succ j ih =>
    intro hj
    obtain ⟨s1, h1, hI⟩ := ih (by omega)
    obtain ⟨s2, h2, hI2⟩ := hstep j s1 (by omega) hI
    refine ⟨s2, ?_, hI2⟩
    rw [List.range_succ, List.foldlM_append, h1]
    simpa [List.foldlM_cons, List.foldlM_nil] using h2

/-- The same for a loop over `a, ..., a + len - 1`. -/
theorem foldlM_range'_inv {σ : Type} (body : σ → Nat → Except failure σ)
    (I : Nat → σ → Prop) (a len : Nat)
    (hstep : ∀ i s, a ≤ i → i < a + len → I i s → ∃ s', body s i = .ok s' ∧ I (i + 1) s')
    (s0 : σ) (h0 : I a s0) :
    ∃ s', (List.range' a len).foldlM body s0 = .ok s' ∧ I (a + len) s' := by
  suffices h : ∀ j, j ≤ len →
      ∃ s', (List.range' a j).foldlM body s0 = .ok s' ∧ I (a + j) s' from h len le_rfl
  intro j
  induction j with
  | zero => intro _; exact ⟨s0, rfl, h0⟩
  | succ j ih =>
    intro hj
    obtain ⟨s1, h1, hI⟩ := ih (by omega)
    obtain ⟨s2, h2, hI2⟩ := hstep (a + j) s1 (by omega) (by omega) hI
    refine ⟨s2, ?_, hI2⟩
    rw [List.range'_1_concat, List.foldlM_append, h1]
    simpa [List.foldlM_cons, List.foldlM_nil] using h2

namespace graph

theorem min_over_succ (p s : Nat) (f : Nat → Nat) (init : Nat) :
    min_over (p + 1) s f init =
      if s.testBit p then min (min_over p s f init) (f p) else min_over p s f init := by
  simp [min_over, List.range_succ, List.foldl_append]

theorem min_over_congr (n s : Nat) (f f' : Nat → Nat) (init : Nat)
    (h : ∀ m, m < n → f m = f' m) : min_over n s f init = min_over n s f' init := by
  induction n with
  | zero => rfl
  | succ n ih =>
    rw [min_over_succ, min_over_succ, ih (fun m hm => h m (by omega)), h n (by omega)]

theorem table_index_lt {N n S k : Nat} (hS : S < N) (hk : k < n) : S * n + k < N * n := by
  have h1 : (S + 1) * n ≤ N * n := Nat.mul_le_mul_right n hS
  rw [Nat.succ_mul] at h1
  omega

theorem lowest_cost_ok {T : List Nat} {N n S k : Nat} (hlen : T.length = N * n)
    (hS : S < N) (hk : k < n) : lowest_cost T N n S k = .ok (cell T n S k) := by
  have hlt : S * n + k < T.length := by rw [hlen]; exact table_index_lt hS hk
  simp [lowest_cost, lowest_cost_index, hS, hk, cell, List.getElem?_eq_getElem hlt]

theorem lowest_cost_assign_ok {T : List Nat} {N n S k : Nat} (hlen : T.length = N * n)
    (hS : S < N) (hk : k < n) (v : Nat) :
    lowest_cost_assign T N n S k v = .ok (T.set (S * n + k) v) := by
  have hlt : S * n + k < T.length := by rw [hlen]; exact table_index_lt hS hk
  simp [lowest_cost_assign, lowest_cost_index, hS, hk, hlt]

theorem cell_set_self {T : List Nat} {N n S k : Nat} (hlen : T.length = N * n)
    (hS : S < N) (hk : k < n) (v : Nat) : cell (T.set (S * n + k) v) n S k = v := by
  have hlt : S * n + k < T.length := by rw [hlen]; exact table_index_lt hS hk
  simp [cell, hlt]

theorem cell_set_ne {T : List Nat} {n S k S' k' : Nat} (hk : k < n) (hk' : k' < n)
    (hne : ¬ (S' = S ∧ k' = k)) (v : Nat) :
    cell (T.set (S * n + k) v) n S' k' = cell T n S' k' := by
  have h : S * n + k ≠ S' * n + k' := by
    intro h
    have := adjacency_matrix.flat_index_inj hk hk' h
    exact hne ⟨this.1.symm, this.2.symm⟩
  simp [cell, List.getElem?_set_ne h]

/-- One iteration of the innermost loop, in closed form. -/
theorem previous_node_body_ok (g : bhk.graph) (hn : g._nodes.length ≤ 31)
    (hget : ∀ a b, a < g._nodes.length → b < g._nodes.length →
      g._distance.get a b = .ok (g._distance.entry a b)) {T : List Nat}
    (hlen : T.length = 2 ^ g._nodes.length * g._nodes.length) {s k prev p : Nat}
    (hs : s < 2 ^ g._nodes.length) (hk : k < g._nodes.length)
    (hprev : prev < 2 ^ g._nodes.length) (hp : p < g._nodes.length) :
    previous_node_body g (2 ^ g._nodes.length) g._nodes.length s k prev T p =
      .ok (if prev.testBit p then
            T.set (s * g._nodes.length + k)
              (min (cell T g._nodes.length s k)
                ((cell T g._nodes.length prev p + g._distance.entry p k) % 2 ^ 32))
          else T) := by
  have hp32 : p < 32 := by omega
  have hget' : g._distance.get p k = .ok (g._distance.entry p k) := hget p k hp hk
  unfold previous_node_body
  rw [shl1U_ok hp32]
  by_cases hbit : prev.testBit p = true
  · have hne : ¬ (prev &&& 2 ^ p = 0) := by
      rw [and_two_pow_eq_zero]; simp [hbit]
    simp only [bind, Except.bind, hne, if_false, lowest_cost_ok hlen hprev hp, hget',
      lowest_cost_ok hlen hs hk, lowest_cost_assign_ok hlen hs hk, hbit, if_true]
  · have hbit' : prev.testBit p = false := by simpa using hbit
    have he : prev &&& 2 ^ p = 0 := (and_two_pow_eq_zero _ _).2 hbit'
    simp [bind, Except.bind, he, hbit', pure, Except.pure]

/-- The innermost loop: it changes the entry at `(s, k)` only, to the minimum
of its old value and of the candidates. -/
theorem previous_node_loop (g : bhk.graph) (hn : g._nodes.length ≤ 31)
    (hget : ∀ a b, a < g._nodes.length → b < g._nodes.length →
      g._distance.get a b = .ok (g._distance.entry a b)) {T0 : List Nat}
    (hlen : T0.length = 2 ^ g._nodes.length * g._nodes.length) (s k prev : Nat)
    (hs : s < 2 ^ g._nodes.length) (hk : k < g._nodes.length)
    (hprev : prev < 2 ^ g._nodes.length) (hne : prev ≠ s) :
    ∃ T, (List.range g._nodes.length).foldlM
        (previous_node_body g (2 ^ g._nodes.length) g._nodes.length s k prev) T0 = .ok T ∧
      T.length = 2 ^ g._nodes.length * g._nodes.length ∧
      (∀ S' k', k' < g._nodes.length → ¬ (S' = s ∧ k' = k) →
        cell T g._nodes.length S' k' = cell T0 g._nodes.length S' k') ∧
      cell T g._nodes.length s k =
        min_over g._nodes.length prev
          (fun m => (cell T0 g._nodes.length prev m + g._distance.entry m k) % 2 ^ 32)
          (cell T0 g._nodes.length s k) := by
  refine foldlM_range_inv _
    (fun p T => T.length = 2 ^ g._nodes.length * g._nodes.length ∧
      (∀ S' k', k' < g._nodes.length → ¬ (S' = s ∧ k' = k) →
        cell T g._nodes.length S' k' = cell T0 g._nodes.length S' k') ∧
      cell T g._nodes.length s k =
        min_over p prev
          (fun m => (cell T0 g._nodes.length prev m + g._distance.entry m k) % 2 ^ 32)
          (cell T0 g._nodes.length s k)) g._nodes.length ?_ T0 ⟨hlen, fun _ _ _ _ => rfl, rfl⟩
  intro p T hp ⟨hl, hframe, hcell⟩
  refine ⟨_, previous_node_body_ok g hn hget hl hs hk hprev hp, ?_⟩
  have hpp : cell T g._nodes.length prev p = cell T0 g._nodes.length prev p :=
    hframe prev p hp (fun h => hne h.1)
  beta_reduce
  rw [min_over_succ]
  by_cases hbit : prev.testBit p = true
  · simp only [hbit, if_true]
    refine ⟨by simp [hl], ?_, ?_⟩
    · intro S' k' hk' hne'
      rw [cell_set_ne hk hk' hne', hframe S' k' hk' hne']
    · rw [cell_set_self hl hs hk, hcell, hpp]
  · simp only [hbit, if_false]
    exact ⟨hl, hframe, hcell⟩

/-- The recurrence at `(S, k)` reads the table only in the row of `S` without
`k`. -/
theorem recurrence_congr (g : bhk.graph) (T T' : List Nat) (S k : Nat)
    (h : ∀ m, m < g._nodes.length →
      cell T g._nodes.length (S ^^^ 2 ^ k) m = cell T' g._nodes.length (S ^^^ 2 ^ k) m) :
    recurrence g T S k = recurrence g T' S k := by
  unfold recurrence
  split
  · rfl
  · exact min_over_congr _ _ _ _ _ (fun m hm => by rw [h m hm])

/-- Completing the entry `(s, j)` moves the invariant from `(s, j)` to
`(s, j + 1)`. -/
theorem table_inv_step (g : bhk.graph) {s j : Nat} {T T' : List Nat}
    (hinv : table_inv g s j T) (hs : s < 2 ^ g._nodes.length) (hj : j < g._nodes.length)
    (hbit : s.testBit j = true)
    (hlen : T'.length = 2 ^ g._nodes.length * g._nodes.length)
    (hframe : ∀ S' k', k' < g._nodes.length → ¬ (S' = s ∧ k' = j) →
        cell T' g._nodes.length S' k' = cell T g._nodes.length S' k')
    (hcell : cell T' g._nodes.length s j = recurrence g T s j) :
    table_inv g s (j + 1) T' := by
  refine ⟨hlen, ?_⟩
  intro S k hS hk
  have hcongr : ∀ S0 k0, S0.testBit k0 = true → S0 ≤ s →
      recurrence g T' S0 k0 = recurrence g T S0 k0 := by
    intro S0 k0 hb hle
    apply recurrence_congr
    intro m hm
    apply hframe _ _ hm
    intro h
    have := xor_two_pow_lt hb
    omega
  by_cases hSk : S = s ∧ k = j
  · obtain ⟨rfl, rfl⟩ := hSk
    constructor
    · intro _
      rw [hcell, hcongr S k hbit le_rfl]
    · intro hnd
      exact absurd ⟨hbit, Or.inr ⟨rfl, Nat.lt_succ_self _⟩⟩ hnd
  · have hiff : done s (j + 1) S k ↔ done s j S k := by
      unfold done
      constructor
      · rintro ⟨hb, h | ⟨h1, h2⟩⟩
        · exact ⟨hb, Or.inl h⟩
        · refine ⟨hb, Or.inr ⟨h1, ?_⟩⟩
          have : k ≠ j := fun h => hSk ⟨h1, h⟩
          omega
      · rintro ⟨hb, h | ⟨h1, h2⟩⟩
        · exact ⟨hb, Or.inl h⟩
        · exact ⟨hb, Or.inr ⟨h1, by omega⟩⟩
    rw [hframe S k hk hSk, hiff]
    constructor
    · intro hd
      have hle : S ≤ s := by
        rcases hd.2 with h | ⟨h, _⟩ <;> omega
      rw [(hinv.2 S k hS hk).1 hd, hcongr S k hd.1 hle]
    · exact (hinv.2 S k hS hk).2

/-- One iteration of the middle loop. -/
theorem node_body_inv (g : bhk.graph) (hn : g._nodes.length ≤ 31)
    (hget : ∀ a b, a < g._nodes.length → b < g._nodes.length →
      g._distance.get a b = .ok (g._distance.entry a b)) {s j : Nat}
    {T : List Nat} (hinv : table_inv g s j T) (hs : s < 2 ^ g._nodes.length)
    (hj : j < g._nodes.length) :
    ∃ T', node_body g (2 ^ g._nodes.length) g._nodes.length s T j = .ok T' ∧
      table_inv g s (j + 1) T' := by
  have hj32 : j < 32 := by omega
  unfold node_body
  rw [shl1U_ok hj32]
  by_cases hbit : s.testBit j = true
  · have hne : ¬ (s &&& 2 ^ j = 0) := by
      rw [and_two_pow_eq_zero]; simp [hbit]
    have hmax : cell T g._nodes.length s j = UINT32_MAX :=
      (hinv.2 s j hs hj).2 (fun hd => by
        rcases hd.2 with h | ⟨_, h⟩ <;> omega)
    by_cases hprev : s ^^^ 2 ^ j = 0
    · refine ⟨T.set (s * g._nodes.length + j) 0, ?_, ?_⟩
      · simp [bind, Except.bind, hne, hprev, lowest_cost_assign_ok hinv.1 hs hj]
      · apply table_inv_step g hinv hs hj hbit (by simp [hinv.1])
        · intro S' k' hk' hne'
          exact cell_set_ne hj hk' hne' 0
        · rw [cell_set_self hinv.1 hs hj]
          simp [recurrence, hprev]
    · have hlt := xor_two_pow_lt hbit
      obtain ⟨T', hT', hlen', hframe, hcell⟩ :=
        previous_node_loop g hn hget hinv.1 s j (s ^^^ 2 ^ j)
          hs hj (by omega) (by omega)
      refine ⟨T', ?_, ?_⟩
      · simp only [bind, Except.bind, hne, hprev, if_false]
        exact hT'
      · apply table_inv_step g hinv hs hj hbit hlen' hframe
        rw [hcell, hmax]
        simp [recurrence, hprev]
  · have hbit' : s.testBit j = false := by simpa using hbit
    have he : s &&& 2 ^ j = 0 := (and_two_pow_eq_zero _ _).2 hbit'
    refine ⟨T, by simp [bind, Except.bind, he, pure, Except.pure], hinv.1, ?_⟩
    intro S k hS hk
    have hiff : done s (j + 1) S k ↔ done s j S k := by
      unfold done
      constructor
      · rintro ⟨hb, h | ⟨h1, h2⟩⟩
        · exact ⟨hb, Or.inl h⟩
        · refine ⟨hb, Or.inr ⟨h1, ?_⟩⟩
          have : k ≠ j := by
            rintro rfl
            rw [h1, hbit'] at hb
            cases hb
          omega
      · rintro ⟨hb, h | ⟨h1, h2⟩⟩
        · exact ⟨hb, Or.inl h⟩
        · exact ⟨hb, Or.inr ⟨h1, by omega⟩⟩
    rw [hiff]
    exact hinv.2 S k hS hk

/-- One iteration of the outer loop. -/
theorem set_body_inv (g : bhk.graph) (hn : g._nodes.length ≤ 31)
    (hget : ∀ a b, a < g._nodes.length → b < g._nodes.length →
      g._distance.get a b = .ok (g._distance.entry a b)) {s : Nat}
    {T : List Nat} (hinv : table_inv g s 0 T) (hs : s < 2 ^ g._nodes.length) :
    ∃ T', set_body g (2 ^ g._nodes.length) g._nodes.length T s = .ok T' ∧
      table_inv g (s + 1) 0 T' := by
  obtain ⟨T', hT', hinv'⟩ := foldlM_range_inv
    (node_body g (2 ^ g._nodes.length) g._nodes.length s) (fun j T => table_inv g s j T)
    g._nodes.length (fun j T hj hI => node_body_inv g hn hget hI hs hj) T hinv
  refine ⟨T', hT', hinv'.1, ?_⟩
  intro S k hS hk
  have hiff : done (s + 1) 0 S k ↔ done s g._nodes.length S k := by
    unfold done
    constructor
    · rintro ⟨hb, h | ⟨h1, h2⟩⟩
      · refine ⟨hb, ?_⟩
        by_cases h' : S < s
        · exact Or.inl h'
        · exact Or.inr ⟨by omega, hk⟩
      · omega
    · rintro ⟨hb, h | ⟨h1, h2⟩⟩
      · exact ⟨hb, Or.inl (by omega)⟩
      · exact ⟨hb, Or.inl (by omega)⟩
  rw [hiff]
  exact hinv'.2 S k hS hk

/-- The loops of `shortest_path` run to their end, and every entry of the
table they leave satisfies the recurrence. -/
theorem cost_table_ok (g : bhk.graph) (hn : g._nodes.length ≤ 31)
    (hget : ∀ a b, a < g._nodes.length → b < g._nodes.length →
      g._distance.get a b = .ok (g._distance.entry a b)) :
    ∃ T, cost_table g = .ok T ∧ table_inv g (2 ^ g._nodes.length) 0 T := by
  have hn32 : g._nodes.length < 32 := by omega
  have hpos : 0 < 2 ^ g._nodes.length := Nat.two_pow_pos _
  have h0 : table_inv g 1 0
      (List.replicate (2 ^ g._nodes.length * g._nodes.length) UINT32_MAX) := by
    refine ⟨by simp, ?_⟩
    intro S k hS hk
    have hlt := table_index_lt hS hk
    have hc : cell (List.replicate (2 ^ g._nodes.length * g._nodes.length) UINT32_MAX)
        g._nodes.length S k = UINT32_MAX := by
      simp [cell, List.getElem?_replicate, hlt]
    constructor
    · rintro ⟨hb, h | ⟨_, h⟩⟩
      · have : S = 0 := by omega
        subst this
        simp at hb
      · omega
    · intro _; exact hc
  obtain ⟨T, hT, hinv⟩ := foldlM_range'_inv
    (set_body g (2 ^ g._nodes.length) g._nodes.length) (fun s T => table_inv g s 0 T)
    1 (2 ^ g._nodes.length - 1)
    (fun s T _ hs hI => set_body_inv g hn hget hI (by omega)) _ h0
  refine ⟨T, ?_, ?_⟩
  · unfold cost_table
    dsimp only
    rw [shl1U_ok hn32]
    exact hT
  · have : 1 + (2 ^ g._nodes.length - 1) = 2 ^ g._nodes.length := by omega
    rw [this] at hinv
    exact hinv

/-- The value `shortest_path` returns is the entry of the final table at the
full set and node `0`. -/
theorem shortest_path_ok (g : bhk.graph) (hn1 : 1 ≤ g._nodes.length)
    (hn : g._nodes.length ≤ 31)
    (hget : ∀ a b, a < g._nodes.length → b < g._nodes.length →
      g._distance.get a b = .ok (g._distance.entry a b)) :
    ∃ T, cost_table g = .ok T ∧ table_inv g (2 ^ g._nodes.length) 0 T ∧
      shortest_path g = .ok (cell T g._nodes.length (2 ^ g._nodes.length - 1) 0) := by
  obtain ⟨T, hT, hinv⟩ := cost_table_ok g hn hget
  have hn32 : g._nodes.length < 32 := by omega
  have hpos : 0 < 2 ^ g._nodes.length := Nat.two_pow_pos _
  refine ⟨T, hT, hinv, ?_⟩
  unfold shortest_path
  dsimp only
  rw [shl1U_ok hn32, hT]
  simp only [bind, Except.bind]
  exact lowest_cost_ok hinv.1 (by omega) (by omega)

/-! ## The meaning of the table -/

theorem min_over_le_init (n s : Nat) (f : Nat → Nat) (init : Nat) :
    min_over n s f init ≤ init := by
  induction n with
  | zero => exact le_rfl
  | succ n ih =>
    rw [min_over_succ]
    split
    · exact le_trans (Nat.min_le_left _ _) ih
    · exact ih

theorem min_over_le (n s : Nat) (f : Nat → Nat) (init : Nat) {m : Nat} (hm : m < n)
    (hbit : s.testBit m = true) : min_over n s f init ≤ f m := by
  induction n with
  | zero => omega
  | succ n ih =>
    rw [min_over_succ]
    by_cases hmn : m = n
    · subst hmn
      rw [if_pos hbit]
      exact Nat.min_le_right _ _
    · have h := ih (by omega)
      split
      · exact le_trans (Nat.min_le_left _ _) h
      · exact h

theorem min_over_mem (n s : Nat) (f : Nat → Nat) (init : Nat) :
    min_over n s f init = init ∨
      ∃ m, m < n ∧ s.testBit m = true ∧ min_over n s f init = f m := by
  induction n with
  | zero => exact Or.inl rfl
  | succ n ih =>
    rw [min_over_succ]
    by_cases hbit : s.testBit n = true
    · rw [if_pos hbit]
      rcases Nat.le_total (min_over n s f init) (f n) with h | h
      · rw [Nat.min_eq_left h]
        rcases ih with h1 | ⟨m, hm, hb, he⟩
        · exact Or.inl h1
        · exact Or.inr ⟨m, by omega, hb, he⟩
      · rw [Nat.min_eq_right h]
        exact Or.inr ⟨n, by omega, hbit, rfl⟩
    · rw [if_neg hbit]
      rcases ih with h1 | ⟨m, hm, hb, he⟩
      · exact Or.inl h1
      · exact Or.inr ⟨m, by omega, hb, he⟩

theorem path_cost_cons_cons (d : bhk.adjacency_matrix) (a b : Nat) (rest : List Nat) :
    path_cost d (a :: b :: rest) = d.entry a b + path_cost d (b :: rest) := rfl

/-- A walk through nodes below `n` costs at most its number of steps times a
bound `W` of the entries. -/
theorem path_cost_le (d : bhk.adjacency_matrix) (n W : Nat)
    (hW : ∀ a b, a < n → b < n → d.entry a b ≤ W) :
    ∀ l : List Nat, (∀ x ∈ l, x < n) → path_cost d l ≤ (l.length - 1) * W := by
  intro l
  induction l with
  | nil => intro _; simp [path_cost]
  | cons a l ih =>
    intro h
    cases l with
    | nil => simp [path_cost]
    | cons b rest =>
      rw [path_cost_cons_cons]
      have h1 := ih (fun x hx => h x (List.mem_cons_of_mem _ hx))
      have h2 := hW a b (h a (List.mem_cons_self _ _))
        (h b (List.mem_cons_of_mem _ (List.mem_cons_self _ _)))
      simp only [List.length_cons, Nat.add_sub_cancel] at h1 ⊢
      rw [Nat.succ_mul]
      omega

theorem tour_lt {n S k : Nat} {l : List Nat} (hS : S < 2 ^ n) (ht : tour S k l) :
    ∀ x ∈ l, x < n :=
  fun x hx => testBit_lt_of_lt_two_pow hS ((ht.2.2 x).1 hx)

theorem tour_length_le {n S k : Nat} {l : List Nat} (hS : S < 2 ^ n) (ht : tour S k l) :
    l.length ≤ n := by
  have hsub : l ⊆ List.range n := fun x hx => List.mem_range.2 (tour_lt hS ht x hx)
  have := (List.subperm_of_subset ht.2.1 hsub).length_le
  simpa using this

/-- The cost of a tour stays below the initial value of the table. -/
theorem tour_cost_lt (d : bhk.adjacency_matrix) {n W S k : Nat} {l : List Nat}
    (hW : ∀ a b, a < n → b < n → d.entry a b ≤ W) (hnW : (n - 1) * W < 2 ^ 32 - 1)
    (hS : S < 2 ^ n) (ht : tour S k l) : path_cost d l < UINT32_MAX := by
  have h1 := path_cost_le d n W hW l (tour_lt hS ht)
  have h2 := tour_length_le hS ht
  have h3 : (l.length - 1) * W ≤ (n - 1) * W := Nat.mul_le_mul_right W (by omega)
  have hmax : UINT32_MAX = 2 ^ 32 - 1 := rfl
  omega

theorem tour_singleton (k : Nat) : tour (2 ^ k) k [k] := by
  refine ⟨rfl, List.nodup_singleton k, ?_⟩
  intro x
  rw [Nat.testBit_two_pow]
  simp [eq_comm]

/-- Putting `k` in front of a tour of `S` without `k`. -/
theorem tour_cons {S k m : Nat} {l : List Nat} (hk : S.testBit k = true)
    (ht : tour (S ^^^ 2 ^ k) m l) : tour S k (k :: l) := by
  obtain ⟨_, hnd, hmem⟩ := ht
  refine ⟨rfl, List.nodup_cons.2 ⟨?_, hnd⟩, ?_⟩
  · intro hkl
    have := (hmem k).1 hkl
    simp [testBit_xor_two_pow hk] at this
  · intro x
    rw [List.mem_cons, hmem x, testBit_xor_two_pow hk]
    by_cases hx : x = k
    · subst hx; simp [hk]
    · simp [hx]

/-- Taking the first entry off a tour of `S` that has a second entry. -/
theorem tour_tail {S k : Nat} {l : List Nat} (hk : S.testBit k = true)
    (hprev : S ^^^ 2 ^ k ≠ 0) (ht : tour S k l) :
    ∃ m rest, l = k :: m :: rest ∧ tour (S ^^^ 2 ^ k) m (m :: rest) := by
  obtain ⟨hhead, hnd, hmem⟩ := ht
  cases l with
  | nil => cases hhead
  | cons a l' =>
    have hak : a = k := by simpa using hhead
    subst hak
    have hnd' := List.nodup_cons.1 hnd
    have hmem' : ∀ x, x ∈ l' ↔ (S ^^^ 2 ^ a).testBit x = true := by
      intro x
      rw [testBit_xor_two_pow hk]
      constructor
      · intro hx
        have h1 := (hmem x).1 (List.mem_cons_of_mem _ hx)
        have h2 : x ≠ a := fun h => hnd'.1 (h ▸ hx)
        simp [h1, h2]
      · intro hx
        simp only [Bool.and_eq_true, decide_eq_true_eq] at hx
        have := (hmem x).2 hx.1
        rcases List.mem_cons.1 this with h | h
        · exact absurd h hx.2
        · exact h
    cases l' with
    | nil =>
      exfalso
      obtain ⟨i, hi⟩ := Nat.ne_zero_implies_bit_true hprev
      have := (hmem' i).2 hi
      cases this
    | cons m rest => exact ⟨m, rest, rfl, rfl, hnd'.2, hmem'⟩

/-- Every completed entry of the table is the least cost of a tour of its set
that starts at its node, provided the entries of the matrix are symmetric and
bounded by `W` with `(n - 1) * W < 2 ^ 32 - 1`, so that no sum of fewer than
`n` of them reaches the initial value of the table. -/
theorem cell_is_min (g : bhk.graph) (W : Nat)
    (hsym : ∀ a b, a < g._nodes.length → b < g._nodes.length →
      g._distance.entry a b = g._distance.entry b a)
    (hW : ∀ a b, a < g._nodes.length → b < g._nodes.length → g._distance.entry a b ≤ W)
    (hnW : (g._nodes.length - 1) * W < 2 ^ 32 - 1) (T : List Nat)
    (hinv : table_inv g (2 ^ g._nodes.length) 0 T) :
    ∀ S, S < 2 ^ g._nodes.length → ∀ k, S.testBit k = true →
      (∃ l, tour S k l ∧ path_cost g._distance l = cell T g._nodes.length S k) ∧
      ∀ l, tour S k l → cell T g._nodes.length S k ≤ path_cost g._distance l := by
  intro S
  induction S using Nat.strong_induction_on with
  | _ S ih =>
    intro hS k hk
    have hkn : k < g._nodes.length := testBit_lt_of_lt_two_pow hS hk
    have hrec : cell T g._nodes.length S k = recurrence g T S k :=
      (hinv.2 S k hS hkn).1 ⟨hk, Or.inl hS⟩
    by_cases hprev : S ^^^ 2 ^ k = 0
    · have hS2 : S = 2 ^ k := Nat.xor_eq_zero.1 hprev
      have hv : cell T g._nodes.length S k = 0 := by
        rw [hrec]; simp [recurrence, hprev]
      rw [hv]
      exact ⟨⟨[k], hS2 ▸ tour_singleton k, rfl⟩, fun _ _ => Nat.zero_le _⟩
    · have hlt := xor_two_pow_lt hk
      have hprevN : S ^^^ 2 ^ k < 2 ^ g._nodes.length := by omega
      have hv : cell T g._nodes.length S k =
          min_over g._nodes.length (S ^^^ 2 ^ k)
            (fun m => (cell T g._nodes.length (S ^^^ 2 ^ k) m + g._distance.entry m k) % 2 ^ 32)
            UINT32_MAX := by
        rw [hrec]; simp [recurrence, hprev]
      -- a member `m` of the previous set gives a tour whose cost is its candidate
      have hcand : ∀ m, (S ^^^ 2 ^ k).testBit m = true →
          ∃ l, tour S k l ∧ path_cost g._distance l =
            (cell T g._nodes.length (S ^^^ 2 ^ k) m + g._distance.entry m k) % 2 ^ 32 := by
        intro m hm
        have hmn : m < g._nodes.length := testBit_lt_of_lt_two_pow hprevN hm
        obtain ⟨⟨lm, htm, hcm⟩, _⟩ := ih _ hlt hprevN m hm
        have ht : tour S k (k :: lm) := tour_cons hk htm
        have hcost : path_cost g._distance (k :: lm) =
            cell T g._nodes.length (S ^^^ 2 ^ k) m + g._distance.entry m k := by
          cases lm with
          | nil => cases htm.1
          | cons a rest =>
            have ham : a = m := by simpa using htm.1
            subst ham
            rw [path_cost_cons_cons, hcm, hsym k a hkn hmn, Nat.add_comm]
        refine ⟨k :: lm, ht, ?_⟩
        have hlt32 := tour_cost_lt g._distance hW hnW hS ht
        rw [hcost] at hlt32
        have hmax : UINT32_MAX = 2 ^ 32 - 1 := rfl
        rw [hcost, Nat.mod_eq_of_lt (by omega)]
      constructor
      · rcases min_over_mem g._nodes.length (S ^^^ 2 ^ k)
          (fun m => (cell T g._nodes.length (S ^^^ 2 ^ k) m + g._distance.entry m k) % 2 ^ 32)
          UINT32_MAX with h | ⟨m, _, hm, he⟩
        · exfalso
          obtain ⟨m, hm⟩ := Nat.ne_zero_implies_bit_true hprev
          have hmn : m < g._nodes.length := testBit_lt_of_lt_two_pow hprevN hm
          obtain ⟨l, ht, hc⟩ := hcand m hm
          have h1 := min_over_le g._nodes.length (S ^^^ 2 ^ k)
            (fun m => (cell T g._nodes.length (S ^^^ 2 ^ k) m + g._distance.entry m k) % 2 ^ 32)
            UINT32_MAX hmn hm
          have h2 := tour_cost_lt g._distance hW hnW hS ht
          rw [h] at h1
          simp only at h1
          omega
        · obtain ⟨l, ht, hc⟩ := hcand m hm
          exact ⟨l, ht, by rw [hc, hv, he]⟩
      · intro l ht
        obtain ⟨m, rest, rfl, htm⟩ := tour_tail hk hprev ht
        have hm : (S ^^^ 2 ^ k).testBit m = true := (htm.2.2 m).1 (List.mem_cons_self _ _)
        have hmn : m < g._nodes.length := testBit_lt_of_lt_two_pow hprevN hm
        have h1 := min_over_le g._nodes.length (S ^^^ 2 ^ k)
          (fun m => (cell T g._nodes.length (S ^^^ 2 ^ k) m + g._distance.entry m k) % 2 ^ 32)
          UINT32_MAX hmn hm
        have h2 := (ih _ hlt hprevN m hm).2 _ htm
        have h3 := Nat.mod_le (cell T g._nodes.length (S ^^^ 2 ^ k) m + g._distance.entry m k)
          (2 ^ 32)
        rw [path_cost_cons_cons, hv, hsym k m hkn hmn]
        simp only at h1
        omega

/-- The tours of the full set that start at the origin are the origin followed
by an ordering of the real nodes `1, ..., n - 1`. -/
theorem tour_full_iff {n : Nat} (hn : 1 ≤ n) (p : List Nat) :
    tour (2 ^ n - 1) 0 (0 :: p) ↔ p.Perm (List.range' 1 (n - 1)) := by
  constructor
  · rintro ⟨_, hnd, hmem⟩
    have hnd' := List.nodup_cons.1 hnd
    apply (List.perm_ext_iff_of_nodup hnd'.2 (List.nodup_range' 1 (n - 1))).2
    intro x
    rw [List.mem_range'_1]
    constructor
    · intro hx
      have h1 := (hmem x).1 (List.mem_cons_of_mem _ hx)
      have h2 : x ≠ 0 := fun h => hnd'.1 (h ▸ hx)
      simp at h1
      omega
    · intro hx
      have h1 : x ∈ 0 :: p := (hmem x).2 (by simp; omega)
      rcases List.mem_cons.1 h1 with h | h
      · omega
      · exact h
  · intro hp
    have hmem : ∀ x, x ∈ p ↔ 1 ≤ x ∧ x < 1 + (n - 1) := fun x => by
      rw [hp.mem_iff, List.mem_range'_1]
    refine ⟨rfl, List.nodup_cons.2 ⟨?_, hp.nodup_iff.2 (List.nodup_range' 1 (n - 1))⟩, ?_⟩
    · intro h0
      have := (hmem 0).1 h0
      omega
    · intro x
      rw [List.mem_cons, hmem x]
      simp
      omega

/-- The correctness of `shortest_path` on a symmetric matrix whose entries are
read without failure and are bounded by `W` with `(n - 1) * W < 2 ^ 32 - 1`:
the call
returns the least cost of a walk from the origin through an ordering of the
real nodes. -/
theorem shortest_path_is_min (g : bhk.graph) (W : Nat) (hn1 : 1 ≤ g._nodes.length)
    (hn : g._nodes.length ≤ 31)
    (hget : ∀ a b, a < g._nodes.length → b < g._nodes.length →
      g._distance.get a b = .ok (g._distance.entry a b))
    (hsym : ∀ a b, a < g._nodes.length → b < g._nodes.length →
      g._distance.entry a b = g._distance.entry b a)
    (hW : ∀ a b, a < g._nodes.length → b < g._nodes.length → g._distance.entry a b ≤ W)
    (hnW : (g._nodes.length - 1) * W < 2 ^ 32 - 1) :
    ∃ v, shortest_path g = .ok v ∧
      (∃ p, p.Perm (List.range' 1 (g._nodes.length - 1)) ∧
        v = path_cost g._distance (0 :: p)) ∧
      ∀ p, p.Perm (List.range' 1 (g._nodes.length - 1)) →
        v ≤ path_cost g._distance (0 :: p) := by
  obtain ⟨T, _, hinv, hsp⟩ := shortest_path_ok g hn1 hn hget
  have hpos : 0 < 2 ^ g._nodes.length := Nat.two_pow_pos _
  have hbit : (2 ^ g._nodes.length - 1).testBit 0 = true := by simp; omega
  obtain ⟨⟨l, ht, hc⟩, hle⟩ := cell_is_min g W hsym hW hnW T hinv
    (2 ^ g._nodes.length - 1) (by omega) 0 hbit
  refine ⟨_, hsp, ?_, ?_⟩
  · cases l with
    | nil => cases ht.1
    | cons a p =>
      have ha : a = 0 := by simpa using ht.1
      subst ha
      exact ⟨p, (tour_full_iff hn1 p).1 ht, hc.symm⟩
  · intro p hp
    exact hle _ ((tour_full_iff hn1 p).2 hp)

theorem line_distance_le {N i j : Nat} (hi : i ≤ N) (hj : j ≤ N) : line_distance i j ≤ N := by
  unfold line_distance
  split <;> omega

theorem line_weight_le {N i j : Nat} (hi : i ≤ N) (hj : j ≤ N) : line_weight i j ≤ N := by
  unfold line_weight
  split
  · omega
  · exact line_distance_le hi hj

theorem line_weight_comm (i j : Nat) : line_weight i j = line_weight j i := by
  unfold line_weight line_distance
  by_cases hi : i = 0 <;> by_cases hj : j = 0 <;> simp [hi, hj]
  split <;> split <;> omega

/-- On the line graph a walk from the origin through real nodes costs the sum
of the distances between the consecutive real nodes. -/
theorem path_cost_line (d : bhk.adjacency_matrix) (N : Nat)
    (hline : ∀ i j, i < N + 1 → j < N + 1 → d.entry i j = line_weight i j) (p : List Nat)
    (hp : ∀ x ∈ p, 1 ≤ x ∧ x < N + 1) : path_cost d (0 :: p) = order_cost p := by
  have hreal : ∀ q : List Nat, (∀ x ∈ q, 1 ≤ x ∧ x < N + 1) → path_cost d q = order_cost q := by
    intro q
    induction q with
    | nil => intro _; rfl
    | cons a q ih =>
      intro hq
      cases q with
      | nil => rfl
      | cons b rest =>
        have ha := hq a (List.mem_cons_self _ _)
        have hb := hq b (List.mem_cons_of_mem _ (List.mem_cons_self _ _))
        have h1 := ih (fun x hx => hq x (List.mem_cons_of_mem _ hx))
        have ha0 : a ≠ 0 := by omega
        have hb0 : b ≠ 0 := by omega
        rw [path_cost_cons_cons, h1, hline a b ha.2 hb.2]
        simp [order_cost, line_weight, ha0, hb0]
  cases p with
  | nil => rfl
  | cons a rest =>
    have ha := hp a (List.mem_cons_self _ _)
    rw [path_cost_cons_cons, hreal _ hp, hline 0 a (by omega) ha.2]
    simp [line_weight]

end graph

/-! ## `parse_from` -/

namespace graph

theorem inferred_node_count_three : inferred_node_count 3 = 3 := by
  have h : Nat.sqrt (1 + 8 * 3) = 5 := Nat.sqrt_eq 5
  simp [inferred_node_count, h]

theorem inferred_node_count_one : inferred_node_count 1 = 2 := by
  have h : Nat.sqrt (1 + 8 * 1) = 3 := Nat.sqrt_eq 3
  simp [inferred_node_count, h]

/-- The three lines of the concrete scenario parse to the graph `london`. -/
theorem parse_from_london : parse_from london_text = .ok london := by
  unfold parse_from
  have hc : london_text.toList.count '\n' = 3 := by decide
  rw [hc, inferred_node_count_three]
  decide

/-- The one line `A to B = 1` parses to the graph `two_nodes 1`. -/
theorem parse_from_two_nodes_one : parse_from "A to B = 1\n" = .ok (two_nodes 1) := by
  unfold parse_from
  have hc : "A to B = 1\n".toList.count '\n' = 1 := by decide
  rw [hc, inferred_node_count_one]
  decide

theorem two_nodes_valid (w : Nat) :
    (two_nodes w)._distance.valid ∧ (two_nodes w)._distance._node_count = 3 :=
  adjacency_matrix.update_valid (adjacency_matrix.adjacency_matrix 3)
    (adjacency_matrix.adjacency_matrix_valid 3) (a := 1) (b := 2) (by decide) (by decide) w

theorem two_nodes_entry (w c d : Nat) (hd : d < 3) :
    (two_nodes w)._distance.entry c d =
      if (c = 1 ∧ d = 2) ∨ (c = 2 ∧ d = 1) then w else 0 := by
  have h := adjacency_matrix.entry_update (adjacency_matrix.adjacency_matrix 3)
    (adjacency_matrix.adjacency_matrix_valid 3) (a := 1) (b := 2) (c := c) (d := d)
    (by decide) (by decide) hd w
  rw [adjacency_matrix.adjacency_matrix_entry] at h
  exact h

theorem two_nodes_length (w : Nat) : (two_nodes w)._nodes.length = 3 := rfl

theorem two_nodes_entry_comm (w a b : Nat) (ha : a < 3) (hb : b < 3) :
    (two_nodes w)._distance.entry a b = (two_nodes w)._distance.entry b a := by
  rw [two_nodes_entry w a b hb, two_nodes_entry w b a ha]
  have h : ((a = 1 ∧ b = 2) ∨ (a = 2 ∧ b = 1)) ↔ ((b = 1 ∧ a = 2) ∨ (b = 2 ∧ a = 1)) := by
    omega
  rw [if_congr h rfl rfl]

theorem two_nodes_entry_le (w a b : Nat) (hb : b < 3) :
    (two_nodes w)._distance.entry a b ≤ w := by
  rw [two_nodes_entry w a b hb]
  split
  · exact le_rfl
  · exact Nat.zero_le _

theorem two_nodes_path_cost (w : Nat) :
    path_cost (two_nodes w)._distance [0, 1, 2] = w ∧
    path_cost (two_nodes w)._distance [0, 2, 1] = w := by
  simp [path_cost, two_nodes_entry]

/-- An ordering of the two real nodes. -/
theorem perm_one_two (p : List Nat) (hp : p.Perm [1, 2]) : p = [1, 2] ∨ p = [2, 1] := by
  have hlen := hp.length_eq
  have hnd : p.Nodup := hp.nodup_iff.2 (by decide)
  have hmem : ∀ x, x ∈ p → x = 1 ∨ x = 2 := by
    intro x hx
    have := hp.mem_iff.1 hx
    simpa using this
  match p, hlen, hnd, hmem with
  | [a, b], _, hnd, hmem =>
    have ha := hmem a (by simp)
    have hb := hmem b (by simp)
    have hne : a ≠ b := by
      intro h
      subst h
      simp at hnd
    rcases ha with rfl | rfl <;> rcases hb with rfl | rfl
    · exact absurd rfl hne
    · exact Or.inl rfl
    · exact Or.inr rfl
    · exact absurd rfl hne

/-- On two real nodes joined by an edge of weight `w` below `2 ^ 31`,
`shortest_path` returns `w`. -/
theorem shortest_path_two_nodes (w : Nat) (hw : 2 * w < 2 ^ 32) :
    shortest_path (two_nodes w) = .ok w := by
  have hlen := two_nodes_length w
  have hget : ∀ a b, a < (two_nodes w)._nodes.length → b < (two_nodes w)._nodes.length →
      (two_nodes w)._distance.get a b = .ok ((two_nodes w)._distance.entry a b) := by
    intro a b ha hb
    rw [hlen] at ha hb
    apply adjacency_matrix.get_ok _ (two_nodes_valid w).1
    · rw [(two_nodes_valid w).2]; exact ha
    · rw [(two_nodes_valid w).2]; exact hb
  have hsym : ∀ a b, a < (two_nodes w)._nodes.length → b < (two_nodes w)._nodes.length →
      (two_nodes w)._distance.entry a b = (two_nodes w)._distance.entry b a := by
    intro a b ha hb
    rw [hlen] at ha hb
    exact two_nodes_entry_comm w a b ha hb
  have hW : ∀ a b, a < (two_nodes w)._nodes.length → b < (two_nodes w)._nodes.length →
      (two_nodes w)._distance.entry a b ≤ w := by
    intro a b _ hb
    rw [hlen] at hb
    exact two_nodes_entry_le w a b hb
  have hnW : ((two_nodes w)._nodes.length - 1) * w < 2 ^ 32 - 1 := by
    rw [hlen]
    omega
  obtain ⟨v, hsp, ⟨p, hp, hv⟩, _⟩ := shortest_path_is_min (two_nodes w) w
    (by rw [hlen]; omega) (by rw [hlen]; omega) hget hsym hW hnW
  rw [hlen] at hp
  rw [hsp]
  rcases perm_one_two p hp with h | h
  · rw [hv, h, (two_nodes_path_cost w).1]
  · rw [hv, h, (two_nodes_path_cost w).2]

end graph

/-! ## Claims on `shortest_path` -/

/-- C1: for every graph with `n` nodes (index 0 the origin, `1 <= n <= 31`)
whose distance matrix is an `adjacency_matrix` of size at least `n` (a fresh
matrix after in-bounds updates) and whose weights `w` among the first `n`
indices satisfy `n * w < 2 ^ 32`, `shortest_path()` returns a value `v` that is
the minimum, over the orderings `p` of the real nodes `1, ..., n - 1`, of
`get(0, p_1)` plus the sum of `get(p_i, p_(i+1))`: some ordering has cost `v`
and no ordering costs less (with no real nodes the only ordering is empty and
`v = 0`). The cost of a walk is `path_cost`, the sum of the entries that `get`
returns for its consecutive nodes. -/
theorem C1_shortest_path_minimum (g : graph) (size : Nat) (us : List (Nat × Nat × Nat))
    (hus : ∀ u ∈ us, u.1 < size ∧ u.2.1 < size)
    (hd : g._distance = ((adjacency_matrix.adjacency_matrix size).updates us).2)
    (hn1 : 1 ≤ g._nodes.length) (hn : g._nodes.length ≤ 31) (hsize : g._nodes.length ≤ size)
    (hw : ∀ a, a < g._nodes.length → ∀ b, b < g._nodes.length →
      g._nodes.length * g._distance.entry a b < 2 ^ 32) :
    (∀ a, a < g._nodes.length → ∀ b, b < g._nodes.length →
      g._distance.get a b = .ok (g._distance.entry a b)) ∧
    ∃ v, g.shortest_path = .ok v ∧
      (∃ p, p.Perm (List.range' 1 (g._nodes.length - 1)) ∧
        v = graph.path_cost g._distance (0 :: p)) ∧
      (∀ p, p.Perm (List.range' 1 (g._nodes.length - 1)) →
        v ≤ graph.path_cost g._distance (0 :: p)) ∧
      (g._nodes.length = 1 → v = 0) := by
  obtain ⟨_, hv, hcount, hsym⟩ := adjacency_matrix.updates_symmetric size us hus
  rw [← hd] at hv hcount hsym
  have hget : ∀ a b, a < g._nodes.length → b < g._nodes.length →
      g._distance.get a b = .ok (g._distance.entry a b) :=
    fun a b ha hb => adjacency_matrix.get_ok _ hv (by omega) (by omega)
  have hW : ∀ a b, a < g._nodes.length → b < g._nodes.length →
      g._distance.entry a b ≤ (2 ^ 32 - 1) / g._nodes.length := by
    intro a b ha hb
    rw [Nat.le_div_iff_mul_le (by omega)]
    have := hw a ha b hb
    rw [Nat.mul_comm] at this
    omega
  have hnW : (g._nodes.length - 1) * ((2 ^ 32 - 1) / g._nodes.length) < 2 ^ 32 - 1 := by
    have h1 := Nat.mul_div_le (2 ^ 32 - 1) g._nodes.length
    have h2 : 1 ≤ (2 ^ 32 - 1) / g._nodes.length := by
      rw [Nat.le_div_iff_mul_le (by omega)]
      omega
    have h3 : (g._nodes.length - 1 + 1) * ((2 ^ 32 - 1) / g._nodes.length) ≤ 2 ^ 32 - 1 := by
      rw [Nat.sub_add_cancel hn1]
      exact h1
    rw [Nat.succ_mul] at h3
    omega
  obtain ⟨v, hsp, hex, hle⟩ := graph.shortest_path_is_min g _ hn1 hn hget
    (fun a b ha hb => hsym a b (by omega) (by omega)) hW hnW
  refine ⟨fun a ha b hb => hget a b ha hb, v, hsp, hex, hle, ?_⟩
  intro h1
  obtain ⟨p, hp, hc⟩ := hex
  rw [h1] at hp
  have : p = [] := by simpa using hp
  rw [hc, this]
  rfl

/-- Witness of C1: the graph of three cities. -/
theorem C1_shortest_path_minimum_witness :
    (∀ a, a < graph.london._nodes.length → ∀ b, b < graph.london._nodes.length →
      graph.london._distance.get a b = .ok (graph.london._distance.entry a b)) ∧
    ∃ v, graph.london.shortest_path = .ok v ∧
      (∃ p, p.Perm (List.range' 1 (graph.london._nodes.length - 1)) ∧
        v = graph.path_cost graph.london._distance (0 :: p)) ∧
      (∀ p, p.Perm (List.range' 1 (graph.london._nodes.length - 1)) →
        v ≤ graph.path_cost graph.london._distance (0 :: p)) ∧
      (graph.london._nodes.length = 1 → v = 0) :=
  C1_shortest_path_minimum graph.london 4 [(1, 2, 464), (1, 3, 518), (2, 3, 141)]
    (by decide) rfl (by decide) (by decide) (by decide) (by decide)

/-- C2, as amended: the three lines London-Dublin 464, London-Belfast 518,
Dublin-Belfast 141 parse to the graph with the node list origin, London,
Dublin, Belfast and the matrix of size 4 whose origin row is unset, and on that
graph `shortest_path()` returns 605. -/
theorem C2_london_returns_605 :
    graph.parse_from graph.london_text = .ok graph.london ∧
    graph.london.shortest_path = .ok 605 :=
  ⟨graph.parse_from_london, by decide⟩

/-- C2, as stated, fails: on the graph of the three edges `shortest_path()`
does not return 1247. -/
theorem C2_london_not_1247 :
    graph.parse_from graph.london_text = .ok graph.london ∧
    graph.london.shortest_path ≠ .ok 1247 :=
  ⟨graph.parse_from_london, by decide⟩

/-- C3, as amended: for every weight `w` with `2 * w < 2 ^ 32`, on the graph of
two real nodes joined by a single edge of weight `w` (node list: origin, A, B;
only the A-B entry of the matrix set), `shortest_path()` returns `w`. -/
theorem C3_two_nodes_returns_weight (w : Nat) (hw : 2 * w < 2 ^ 32) :
    (graph.two_nodes w).shortest_path = .ok w :=
  graph.shortest_path_two_nodes w hw

/-- Witness of C3 as amended: the weight 7. -/
theorem C3_two_nodes_returns_weight_witness : (graph.two_nodes 7).shortest_path = .ok 7 :=
  C3_two_nodes_returns_weight 7 (by decide)

/-- C3, as stated, fails: the one line `A to B = 1` parses to the graph of two
real nodes joined by an edge of weight 1, the weight satisfies
`2 * 1 < 2 ^ 32`, and `shortest_path()` does not return `2 * 1`. -/
theorem C3_two_nodes_not_twice :
    2 * 1 < 2 ^ 32 ∧ graph.parse_from "A to B = 1\n" = .ok (graph.two_nodes 1) ∧
    (graph.two_nodes 1).shortest_path ≠ .ok (2 * 1) :=
  ⟨by decide, graph.parse_from_two_nodes_one, by decide⟩

/-- C4: for every `N` with `1 <= N <= 6`, on the line graph with the real nodes
`1, ..., N`, where `get(i, j)` returns `|i - j|` for real `i`, `j` and `0` when
`i` or `j` is the origin, `shortest_path()` returns the result of brute-force
enumeration: the minimum over all `N!` visiting orders of the real nodes of the
sum of the distances between consecutive nodes. -/
theorem C4_line_graph_brute_force (g : graph) (N : Nat) (hN1 : 1 ≤ N) (hN6 : N ≤ 6)
    (hnodes : g._nodes.length = N + 1)
    (hline : ∀ i, i < N + 1 → ∀ j, j < N + 1 →
      g._distance.get i j = .ok (graph.line_weight i j)) :
    g.shortest_path = .ok (graph.brute_force N) := by
  have _ := hN1
  have hentry : ∀ i j, i < N + 1 → j < N + 1 →
      g._distance.entry i j = graph.line_weight i j :=
    fun i j hi hj => ((adjacency_matrix.get_eq_ok _ (hline i hi j hj)).2.2).symm
  have hget : ∀ a b, a < g._nodes.length → b < g._nodes.length →
      g._distance.get a b = .ok (g._distance.entry a b) := by
    intro a b ha hb
    rw [hnodes] at ha hb
    rw [hline a ha b hb, hentry a b ha hb]
  have hsym : ∀ a b, a < g._nodes.length → b < g._nodes.length →
      g._distance.entry a b = g._distance.entry b a := by
    intro a b ha hb
    rw [hnodes] at ha hb
    rw [hentry a b ha hb, hentry b a hb ha, graph.line_weight_comm]
  have hW : ∀ a b, a < g._nodes.length → b < g._nodes.length → g._distance.entry a b ≤ N := by
    intro a b ha hb
    rw [hnodes] at ha hb
    rw [hentry a b ha hb]
    exact graph.line_weight_le (by omega) (by omega)
  have hnW : (g._nodes.length - 1) * N < 2 ^ 32 - 1 := by
    rw [hnodes]
    have : (N + 1 - 1) * N ≤ 6 * 6 := Nat.mul_le_mul (by omega) hN6
    omega
  obtain ⟨v, hsp, ⟨p0, hp0, hc0⟩, hle⟩ := graph.shortest_path_is_min g N (by omega) (by omega)
    hget hsym hW hnW
  have hN : g._nodes.length - 1 = N := by omega
  rw [hN] at hp0 hle
  have hcost : ∀ p : List Nat, p.Perm (List.range' 1 N) →
      graph.path_cost g._distance (0 :: p) = graph.order_cost p := by
    intro p hp
    apply graph.path_cost_line g._distance N hentry
    intro x hx
    have := hp.mem_iff.1 hx
    rw [List.mem_range'_1] at this
    omega
  have hmin : ((List.range' 1 N).permutations.map graph.order_cost).min? = some v := by
    rw [List.min?_eq_some_iff']
    constructor
    · rw [List.mem_map]
      exact ⟨p0, List.mem_permutations.2 hp0, by rw [hc0, hcost p0 hp0]⟩
    · intro b hb
      rw [List.mem_map] at hb
      obtain ⟨p, hp, rfl⟩ := hb
      have hp' := List.mem_permutations.1 hp
      rw [← hcost p hp']
      exact hle p hp'
  rw [hsp]
  unfold graph.brute_force
  rw [hmin]
  rfl

/-- Witness of C4: the line graph with three real nodes. -/
theorem C4_line_graph_brute_force_witness :
    graph.shortest_path
      { _nodes := ["", "1", "2", "3"],
        _distance := ((adjacency_matrix.adjacency_matrix 4).updates
          [(1, 2, 1), (1, 3, 2), (2, 3, 1)]).2 } = .ok (graph.brute_force 3) :=
  C4_line_graph_brute_force
    { _nodes := ["", "1", "2", "3"],
      _distance := ((adjacency_matrix.adjacency_matrix 4).updates
        [(1, 2, 1), (1, 3, 2), (2, 3, 1)]).2 }
    3 (by decide) (by decide) rfl (by decide)

/-! ## Claims on `adjacency_matrix` and on the constructor of `graph` -/

/-- C8: the constructor of `graph` throws exactly when the node list, origin
included, has more than 64 entries (the number of bits of `std::size_t`), and
otherwise yields the graph of that node list and matrix: a list of exactly 64
entries is accepted, a list of 65 is rejected. -/
theorem C8_constructor_cap (nodes : List String) (distances : adjacency_matrix) :
    size_t_bits = 64 ∧
    (graph.graph nodes distances =
      .error (.runtime_error "can only track as many nodes as bits in std::size_t") ↔
      64 < nodes.length) ∧
    (graph.graph nodes distances = .ok { _nodes := nodes, _distance := distances } ↔
      nodes.length ≤ 64) ∧
    ((∃ e, graph.graph nodes distances = .error e) ↔ 64 < nodes.length) := by
  unfold graph.graph size_t_bits
  by_cases h : nodes.length > 64
  · simp [h]
  · simp [h]
    omega

/-- C9, the code at a failing input: the constructor accepts a node list of 32
entries, the shift `1U << 32` that `shortest_path()` then evaluates for its
subset count is undefined, so no subset count `2 ^ 32` is computed and the call
has no result; the shift is defined, and equal to `2 ^ n`, exactly for
`n <= 31`. -/
theorem C9_accepted_graph_undefined_shift :
    graph.graph graph.thirty_two_nodes._nodes graph.thirty_two_nodes._distance =
      .ok graph.thirty_two_nodes ∧
    graph.thirty_two_nodes._nodes.length = 32 ∧
    shl1U graph.thirty_two_nodes._nodes.length = .error .undefined ∧
    graph.thirty_two_nodes.shortest_path = .error .undefined ∧
    ∀ n, shl1U n = .ok (2 ^ n) ↔ n ≤ 31 := by
  refine ⟨rfl, rfl, rfl, rfl, ?_⟩
  intro n
  constructor
  · intro h
    by_contra hc
    have : ¬ n < 32 := by omega
    simp [shl1U, this] at h
  · intro h
    exact shl1U_ok (by omega)

namespace graph

/-- Two tables that satisfy the invariant agree on the entries completed in
both. -/
theorem table_inv_unique (g : bhk.graph) {s j s' j' : Nat} {T T' : List Nat}
    (h : table_inv g s j T) (h' : table_inv g s' j' T') :
    ∀ S, S < 2 ^ g._nodes.length → ∀ k, k < g._nodes.length →
      done s j S k → done s' j' S k →
      cell T g._nodes.length S k = cell T' g._nodes.length S k := by
  intro S
  induction S using Nat.strong_induction_on with
  | _ S ih =>
    intro hS k hk hd hd'
    rw [(h.2 S k hS hk).1 hd, (h'.2 S k hS hk).1 hd']
    unfold recurrence
    split
    · rfl
    · rename_i hprev
      have hlt := xor_two_pow_lt hd.1
      have hprevN : S ^^^ 2 ^ k < 2 ^ g._nodes.length := by omega
      -- the candidates agree on the members of the previous set
      have key : ∀ n0, n0 ≤ g._nodes.length →
          min_over n0 (S ^^^ 2 ^ k)
            (fun m => (cell T g._nodes.length (S ^^^ 2 ^ k) m + g._distance.entry m k) % 2 ^ 32)
            UINT32_MAX =
          min_over n0 (S ^^^ 2 ^ k)
            (fun m => (cell T' g._nodes.length (S ^^^ 2 ^ k) m + g._distance.entry m k) % 2 ^ 32)
            UINT32_MAX := by
        intro n0
        induction n0 with
        | zero => intro _; rfl
        | succ n0 ihn =>
          intro hn0
          rw [min_over_succ, min_over_succ, ihn (by omega)]
          by_cases hb : (S ^^^ 2 ^ k).testBit n0 = true
          · have hdm : done s j (S ^^^ 2 ^ k) n0 := by
              refine ⟨hb, ?_⟩
              rcases hd.2 with h1 | ⟨h1, _⟩
              · exact Or.inl (by omega)
              · exact Or.inl (by omega)
            have hdm' : done s' j' (S ^^^ 2 ^ k) n0 := by
              refine ⟨hb, ?_⟩
              rcases hd'.2 with h1 | ⟨h1, _⟩
              · exact Or.inl (by omega)
              · exact Or.inl (by omega)
            rw [ih _ hlt hprevN n0 (by omega) hdm hdm']
          · simp [hb]
      exact key _ le_rfl

/-- The table at `set = s` exists and satisfies the invariant. -/
theorem table_at_set_ok (g : bhk.graph) (hn : g._nodes.length ≤ 31)
    (hget : ∀ a b, a < g._nodes.length → b < g._nodes.length →
      g._distance.get a b = .ok (g._distance.entry a b)) (s : Nat) (hs1 : 1 ≤ s)
    (hs : s ≤ 2 ^ g._nodes.length) :
    ∃ T, table_at_set g s = .ok T ∧ table_inv g s 0 T := by
  have hn32 : g._nodes.length < 32 := by omega
  have h0 : table_inv g 1 0
      (List.replicate (2 ^ g._nodes.length * g._nodes.length) UINT32_MAX) := by
    refine ⟨by simp, ?_⟩
    intro S k hS hk
    have hlt := table_index_lt hS hk
    have hc : cell (List.replicate (2 ^ g._nodes.length * g._nodes.length) UINT32_MAX)
        g._nodes.length S k = UINT32_MAX := by
      simp [cell, List.getElem?_replicate, hlt]
    constructor
    · rintro ⟨hb, h | ⟨_, h⟩⟩
      · have : S = 0 := by omega
        subst this
        simp at hb
      · omega
    · intro _; exact hc
  obtain ⟨T, hT, hinv⟩ := foldlM_range'_inv
    (set_body g (2 ^ g._nodes.length) g._nodes.length) (fun s T => table_inv g s 0 T)
    1 (s - 1)
    (fun s T _ hs hI => set_body_inv g hn hget hI (by omega)) _ h0
  refine ⟨T, ?_, ?_⟩
  · unfold table_at_set
    dsimp only
    rw [shl1U_ok hn32]
    exact hT
  · have : 1 + (s - 1) = s := by omega
    rw [this] at hinv
    exact hinv

theorem table_at_set_full (g : bhk.graph) (hn : g._nodes.length ≤ 31) :
    table_at_set g (2 ^ g._nodes.length) = cost_table g := by
  have hn32 : g._nodes.length < 32 := by omega
  unfold table_at_set cost_table
  dsimp only
  rw [shl1U_ok hn32]
  rfl


/-- In a graph whose matrix is an `adjacency_matrix` object of size at least
the node count, `get` succeeds on the nodes and returns the entry. -/
theorem distance_get_ok (g : bhk.graph) (size : Nat) (us : List (Nat × Nat × Nat))
    (hus : ∀ u ∈ us, u.1 < size ∧ u.2.1 < size)
    (hd : g._distance = ((adjacency_matrix.adjacency_matrix size).updates us).2)
    (hsize : g._nodes.length ≤ size) :
    ∀ a b, a < g._nodes.length → b < g._nodes.length →
      g._distance.get a b = .ok (g._distance.entry a b) := by
  obtain ⟨_, hv, hcount, _⟩ := adjacency_matrix.updates_symmetric size us hus
  rw [← hd] at hv hcount
  exact fun a b ha hb => adjacency_matrix.get_ok _ hv (by omega) (by omega)

/-- The members of a set without `k`, read off the set. -/
theorem testBit_without (S k m : Nat) (hk : S.testBit k = true) :
    (S ^^^ 2 ^ k).testBit m = true ↔ (m ≠ k ∧ S.testBit m = true) := by
  rw [testBit_xor_two_pow hk]
  simp [and_comm]

theorem parse_from_heavy : parse_from heavy_text = .ok heavy := by
  unfold parse_from
  have hc : heavy_text.toList.count '\n' = 3 := by decide
  rw [hc, inferred_node_count_three]
  decide

end graph

/-! ## Claims on the cost table, on overflow and on the frame of `update` -/

/-- C12: for every graph with `n <= 31` nodes (on an `adjacency_matrix` of size
at least `n`), the loops of `shortest_path()` finish with a cost table `T` in
which, for every subset mask `S < 2 ^ n` with at least two members and every
node `k` in `S`, the entry at `(S, k)` is the minimum over the members `m` of
`S` other than `k` of the entry at `(S without k, m)` plus `get(m, k)` in
32-bit arithmetic: it is attained at some such `m` and exceeds the value at no
such `m`. The entries at `(S without k, m)` are final: the table at every later
point `set = s` of the outer loop holds the same values there. -/
theorem C12_table_recurrence (g : graph) (size : Nat) (us : List (Nat × Nat × Nat))
    (hus : ∀ u ∈ us, u.1 < size ∧ u.2.1 < size)
    (hd : g._distance = ((adjacency_matrix.adjacency_matrix size).updates us).2)
    (hn : g._nodes.length ≤ 31) (hsize : g._nodes.length ≤ size) :
    ∃ T, g.cost_table = .ok T ∧
      ∀ S k, S < 2 ^ g._nodes.length → S.testBit k = true →
        (∃ m, m ≠ k ∧ S.testBit m = true) →
        (∃ m, m ≠ k ∧ S.testBit m = true ∧
          g._distance.get m k = .ok (g._distance.entry m k) ∧
          graph.cell T g._nodes.length S k =
            (graph.cell T g._nodes.length (S ^^^ 2 ^ k) m + g._distance.entry m k) % 2 ^ 32) ∧
        (∀ m, m ≠ k → S.testBit m = true →
          graph.cell T g._nodes.length S k ≤
            (graph.cell T g._nodes.length (S ^^^ 2 ^ k) m + g._distance.entry m k) % 2 ^ 32) ∧
        (∀ s, S ^^^ 2 ^ k < s → s ≤ 2 ^ g._nodes.length →
          ∃ Ts, g.table_at_set s = .ok Ts ∧
            ∀ m, m ≠ k → S.testBit m = true →
              graph.cell Ts g._nodes.length (S ^^^ 2 ^ k) m =
                graph.cell T g._nodes.length (S ^^^ 2 ^ k) m) := by
  have hget := graph.distance_get_ok g size us hus hd hsize
  obtain ⟨T, hT, hinv⟩ := graph.cost_table_ok g hn hget
  refine ⟨T, hT, ?_⟩
  intro S k hS hk hmem
  have hkn : k < g._nodes.length := testBit_lt_of_lt_two_pow hS hk
  have hlt := xor_two_pow_lt hk
  have hprevN : S ^^^ 2 ^ k < 2 ^ g._nodes.length := by omega
  have hprev : S ^^^ 2 ^ k ≠ 0 := by
    obtain ⟨m, hm, hb⟩ := hmem
    intro h0
    have := (graph.testBit_without S k m hk).2 ⟨hm, hb⟩
    rw [h0] at this
    simp at this
  have hv : graph.cell T g._nodes.length S k =
      graph.min_over g._nodes.length (S ^^^ 2 ^ k)
        (fun m => (graph.cell T g._nodes.length (S ^^^ 2 ^ k) m + g._distance.entry m k) % 2 ^ 32)
        UINT32_MAX := by
    rw [(hinv.2 S k hS hkn).1 ⟨hk, Or.inl hS⟩]
    simp [graph.recurrence, hprev]
  have hle : ∀ m, m ≠ k → S.testBit m = true →
      graph.cell T g._nodes.length S k ≤
        (graph.cell T g._nodes.length (S ^^^ 2 ^ k) m + g._distance.entry m k) % 2 ^ 32 := by
    intro m hm hb
    have hmn : m < g._nodes.length := testBit_lt_of_lt_two_pow hS hb
    rw [hv]
    exact graph.min_over_le _ _ _ _ hmn ((graph.testBit_without S k m hk).2 ⟨hm, hb⟩)
  refine ⟨?_, hle, ?_⟩
  · rcases graph.min_over_mem g._nodes.length (S ^^^ 2 ^ k)
      (fun m => (graph.cell T g._nodes.length (S ^^^ 2 ^ k) m + g._distance.entry m k) % 2 ^ 32)
      UINT32_MAX with h | ⟨m, hmn, hb, he⟩
    · obtain ⟨m, hm, hb⟩ := hmem
      have hmn : m < g._nodes.length := testBit_lt_of_lt_two_pow hS hb
      refine ⟨m, hm, hb, hget m k hmn hkn, ?_⟩
      have h1 := hle m hm hb
      have h2 : (graph.cell T g._nodes.length (S ^^^ 2 ^ k) m + g._distance.entry m k) % 2 ^ 32
          < 2 ^ 32 := Nat.mod_lt _ (by decide)
      rw [hv, h] at h1
      rw [hv, h]
      have hmax : UINT32_MAX = 2 ^ 32 - 1 := rfl
      omega
    · have hb' := (graph.testBit_without S k m hk).1 hb
      exact ⟨m, hb'.1, hb'.2, hget m k hmn hkn, by rw [hv, he]⟩
  · intro s hs hs2
    obtain ⟨Ts, hTs, hinvs⟩ := graph.table_at_set_ok g hn hget s (by omega) hs2
    refine ⟨Ts, hTs, ?_⟩
    intro m hm hb
    have hmn : m < g._nodes.length := testBit_lt_of_lt_two_pow hS hb
    have hbm := (graph.testBit_without S k m hk).2 ⟨hm, hb⟩
    exact graph.table_inv_unique g hinvs hinv _ hprevN m hmn ⟨hbm, Or.inl hs⟩
      ⟨hbm, Or.inl hprevN⟩

/-- Witness of C12: the graph of three cities. -/
theorem C12_table_recurrence_witness :
    ∃ T, graph.london.cost_table = .ok T ∧
      ∀ S k, S < 2 ^ graph.london._nodes.length → S.testBit k = true →
        (∃ m, m ≠ k ∧ S.testBit m = true) →
        (∃ m, m ≠ k ∧ S.testBit m = true ∧
          graph.london._distance.get m k = .ok (graph.london._distance.entry m k) ∧
          graph.cell T graph.london._nodes.length S k =
            (graph.cell T graph.london._nodes.length (S ^^^ 2 ^ k) m +
              graph.london._distance.entry m k) % 2 ^ 32) ∧
        (∀ m, m ≠ k → S.testBit m = true →
          graph.cell T graph.london._nodes.length S k ≤
            (graph.cell T graph.london._nodes.length (S ^^^ 2 ^ k) m +
              graph.london._distance.entry m k) % 2 ^ 32) ∧
        (∀ s, S ^^^ 2 ^ k < s → s ≤ 2 ^ graph.london._nodes.length →
          ∃ Ts, graph.london.table_at_set s = .ok Ts ∧
            ∀ m, m ≠ k → S.testBit m = true →
              graph.cell Ts graph.london._nodes.length (S ^^^ 2 ^ k) m =
                graph.cell T graph.london._nodes.length (S ^^^ 2 ^ k) m) :=
  C12_table_recurrence graph.london 4 [(1, 2, 464), (1, 3, 518), (2, 3, 141)]
    (by decide) rfl (by decide) (by decide)

/-- C13, as amended: for every graph with `n <= 31` nodes (on an
`adjacency_matrix` of size at least `n`) and every node `k`, the entry for the
singleton subset `S = {k}` with last node `k` that `shortest_path()` computes
is 0, whatever `get(origin, k)` is. -/
theorem C13_base_case_zero (g : graph) (size : Nat) (us : List (Nat × Nat × Nat))
    (hus : ∀ u ∈ us, u.1 < size ∧ u.2.1 < size)
    (hd : g._distance = ((adjacency_matrix.adjacency_matrix size).updates us).2)
    (hn : g._nodes.length ≤ 31) (hsize : g._nodes.length ≤ size) :
    ∃ T, g.cost_table = .ok T ∧
      ∀ k, k < g._nodes.length →
        graph.lowest_cost T (2 ^ g._nodes.length) g._nodes.length (2 ^ k) k = .ok 0 := by
  have hget := graph.distance_get_ok g size us hus hd hsize
  obtain ⟨T, hT, hinv⟩ := graph.cost_table_ok g hn hget
  refine ⟨T, hT, ?_⟩
  intro k hk
  have hS : 2 ^ k < 2 ^ g._nodes.length := Nat.pow_lt_pow_right (by decide) hk
  rw [graph.lowest_cost_ok hinv.1 hS hk,
    (hinv.2 (2 ^ k) k hS hk).1 ⟨Nat.testBit_two_pow_self, Or.inl hS⟩]
  simp [graph.recurrence]

/-- Witness of C13 as amended: the graph of one real node at distance 5. -/
theorem C13_base_case_zero_witness :
    ∃ T, graph.origin_edge.cost_table = .ok T ∧
      ∀ k, k < graph.origin_edge._nodes.length →
        graph.lowest_cost T (2 ^ graph.origin_edge._nodes.length)
          graph.origin_edge._nodes.length (2 ^ k) k = .ok 0 :=
  C13_base_case_zero graph.origin_edge 2 [(0, 1, 5)] (by decide) rfl (by decide) (by decide)

/-- C13, as stated, fails: on the graph of one real node at distance 5 from the
origin, which the constructor accepts, the entry for the singleton subset of
node 1 is 0 while `get(0, 1)` returns 5. -/
theorem C13_base_case_not_origin_distance :
    graph.graph graph.origin_edge._nodes graph.origin_edge._distance = .ok graph.origin_edge ∧
    graph.origin_edge.cost_table =
      .ok [UINT32_MAX, UINT32_MAX, 0, UINT32_MAX, UINT32_MAX, 0, 5, 5] ∧
    graph.lowest_cost [UINT32_MAX, UINT32_MAX, 0, UINT32_MAX, UINT32_MAX, 0, 5, 5]
      (2 ^ 2) 2 (2 ^ 1) 1 = .ok 0 ∧
    graph.origin_edge._distance.get 0 1 = .ok 5 ∧
    (0 : Nat) ≠ 5 := by
  decide

/-- C15: the three lines of weight `2 ^ 31` parse to the graph of three real
nodes with every pairwise weight `2 ^ 31` and a zero origin row; every weight
fits in 32 bits; every path from the origin through the three real nodes costs
`2 ^ 32`, so that is the true minimum; and `shortest_path()` returns 0, which
is strictly smaller. -/
theorem C15_sum_wraps :
    graph.parse_from graph.heavy_text = .ok graph.heavy ∧
    (∀ a, a < 4 → ∀ b, b < 4 →
      ∃ w, graph.heavy._distance.get a b = .ok w ∧ w < 2 ^ 32) ∧
    graph.heavy.shortest_path = .ok 0 ∧
    (∀ p : List Nat, p.Perm [1, 2, 3] →
      graph.path_cost graph.heavy._distance (0 :: p) = 2 ^ 32) ∧
    (0 : Nat) < 2 ^ 32 := by
  refine ⟨graph.parse_from_heavy, ?_, by decide, ?_, by decide⟩
  · intro a ha b hb
    have h : ∀ a, a < 4 → ∀ b, b < 4 →
        graph.heavy._distance.get a b = .ok (graph.heavy._distance.entry a b) ∧
        graph.heavy._distance.entry a b < 2 ^ 32 := by decide
    exact ⟨_, (h a ha b hb).1, (h a ha b hb).2⟩
  · intro p hp
    have hentry : ∀ a, a < 4 → ∀ b, b < 4 → (1 ≤ a ∧ 1 ≤ b ∧ a ≠ b →
        graph.heavy._distance.entry 0 a = 0 ∧
        graph.heavy._distance.entry a b = 2 ^ 31) := by decide
    have hlen := hp.length_eq
    have hnd : p.Nodup := hp.nodup_iff.2 (by decide)
    have hmem : ∀ x, x ∈ p → 1 ≤ x ∧ x < 4 := by
      intro x hx
      have := hp.mem_iff.1 hx
      simp at this
      omega
    match p, hlen, hnd, hmem with
    | [a, b, c], _, hnd, hmem =>
      have ha := hmem a (by simp)
      have hb := hmem b (by simp)
      have hc := hmem c (by simp)
      simp only [List.nodup_cons, List.mem_cons, List.mem_singleton, not_or] at hnd
      have h1 := hentry a ha.2 b hb.2 ⟨ha.1, hb.1, hnd.1.1⟩
      have h2 := hentry b hb.2 c hc.2 ⟨hb.1, hc.1, hnd.2.1.1⟩
      simp only [graph.path_cost, h1.1, h1.2, h2.2]
      decide

/-- C17: for every graph with `n <= 31` nodes on an `adjacency_matrix` of size
at least `n`, no assertion fails during `shortest_path()`, and the call returns
a value, if and only if `n >= 1`. With an empty node list, which the
constructor accepts, the loops leave an empty table and the final read
`lowest_cost(all_nodes, 0)` has `all_nodes = 0` and fails the assertion
`last < node_count`. -/
theorem C17_assertions_hold_iff_nonempty (g : graph) (size : Nat)
    (us : List (Nat × Nat × Nat)) (hus : ∀ u ∈ us, u.1 < size ∧ u.2.1 < size)
    (hd : g._distance = ((adjacency_matrix.adjacency_matrix size).updates us).2)
    (hn : g._nodes.length ≤ 31) (hsize : g._nodes.length ≤ size) :
    (g.shortest_path ≠ .error .assertion ↔ 1 ≤ g._nodes.length) ∧
    ((∃ v, g.shortest_path = .ok v) ↔ 1 ≤ g._nodes.length) ∧
    (g._nodes.length = 0 →
      graph.graph g._nodes g._distance = .ok g ∧
      g.cost_table = .ok [] ∧
      2 ^ g._nodes.length - 1 = 0 ∧
      graph.lowest_cost_index (2 ^ g._nodes.length) g._nodes.length
        (2 ^ g._nodes.length - 1) 0 = .error .assertion ∧
      g.shortest_path = .error .assertion) := by
  have hget := graph.distance_get_ok g size us hus hd hsize
  have hzero : g._nodes.length = 0 →
      graph.graph g._nodes g._distance = .ok g ∧
      g.cost_table = .ok [] ∧
      2 ^ g._nodes.length - 1 = 0 ∧
      graph.lowest_cost_index (2 ^ g._nodes.length) g._nodes.length
        (2 ^ g._nodes.length - 1) 0 = .error .assertion ∧
      g.shortest_path = .error .assertion := by
    intro h0
    have hct : g.cost_table = .ok [] := by
      unfold graph.cost_table
      rw [h0]
      rfl
    refine ⟨?_, hct, by rw [h0]; rfl, by rw [h0]; rfl, ?_⟩
    · unfold graph.graph size_t_bits
      rw [if_neg (by omega)]
    · unfold graph.shortest_path
      rw [hct, h0]
      rfl
  by_cases h1 : 1 ≤ g._nodes.length
  · obtain ⟨T, _, _, hsp⟩ := graph.shortest_path_ok g h1 hn hget
    refine ⟨⟨fun _ => h1, fun _ => by rw [hsp]; simp⟩, ⟨fun _ => h1, fun _ => ⟨_, hsp⟩⟩, ?_⟩
    intro h0
    omega
  · have h0 : g._nodes.length = 0 := by omega
    have hs := (hzero h0).2.2.2.2
    refine ⟨⟨fun h => absurd hs h, fun h => absurd h h1⟩, ⟨?_, fun h => absurd h h1⟩, hzero⟩
    rintro ⟨v, hv⟩
    rw [hs] at hv
    cases hv

/-- Witness of C17: the graph with an empty node list. -/
theorem C17_assertions_hold_iff_nonempty_witness :
    (graph.no_nodes.shortest_path ≠ .error .assertion ↔ 1 ≤ graph.no_nodes._nodes.length) ∧
    ((∃ v, graph.no_nodes.shortest_path = .ok v) ↔ 1 ≤ graph.no_nodes._nodes.length) ∧
    (graph.no_nodes._nodes.length = 0 →
      graph.graph graph.no_nodes._nodes graph.no_nodes._distance = .ok graph.no_nodes ∧
      graph.no_nodes.cost_table = .ok [] ∧
      2 ^ graph.no_nodes._nodes.length - 1 = 0 ∧
      graph.lowest_cost_index (2 ^ graph.no_nodes._nodes.length) graph.no_nodes._nodes.length
        (2 ^ graph.no_nodes._nodes.length - 1) 0 = .error .assertion ∧
      graph.no_nodes.shortest_path = .error .assertion) :=
  C17_assertions_hold_iff_nonempty graph.no_nodes 0 [] (by decide) rfl (by decide) (by decide)

namespace graph

/-- The inferred node count `K + 1` is placed by the square of `2 * K + 1`:
it reaches `1 + 8 * E`, and the square for the count below does not. -/
theorem inferred_node_count_spec (E : Nat) :
    ∃ K, inferred_node_count E = K + 1 ∧ 1 + 8 * E ≤ (2 * K + 1) * (2 * K + 1) ∧
      ∀ J, K = J + 1 → (2 * J + 1) * (2 * J + 1) < 1 + 8 * E := by
  have h1 := Nat.sqrt_le (1 + 8 * E)
  have h2 := Nat.lt_succ_sqrt (1 + 8 * E)
  unfold inferred_node_count
  generalize Nat.sqrt (1 + 8 * E) = s at h1 h2
  rw [Nat.succ_eq_add_one] at h2
  by_cases hsq : s * s = 1 + 8 * E
  · rw [if_pos hsq]
    rcases Nat.even_or_odd' s with ⟨t, rfl | rfl⟩
    · exfalso
      have : (2 * t * (2 * t)) % 2 = 0 := by
        rw [Nat.mul_assoc]; exact Nat.mul_mod_right _ _
      omega
    · refine ⟨t, by omega, by rw [← hsq], ?_⟩
      intro J hJ
      subst hJ
      rw [← hsq]
      nlinarith
  · rw [if_neg hsq]
    have hlt : s * s < 1 + 8 * E := lt_of_le_of_ne h1 hsq
    rcases Nat.even_or_odd' s with ⟨t, rfl | rfl⟩
    · refine ⟨t, by omega, by nlinarith, ?_⟩
      intro J hJ
      subst hJ
      nlinarith
    · refine ⟨t + 1, by omega, by nlinarith, ?_⟩
      intro J hJ
      have : J = t := by omega
      subst this
      exact hlt

/-- On the edge count of a complete graph the inferred node count is the node
count. -/
theorem inferred_node_count_complete (N : Nat) (hN : 1 ≤ N) :
    inferred_node_count (N * (N - 1) / 2) = N := by
  obtain ⟨K, rfl⟩ : ∃ K, N = K + 1 := ⟨N - 1, by omega⟩
  have heven : 2 * ((K + 1) * (K + 1 - 1) / 2) = (K + 1) * (K + 1 - 1) := by
    apply Nat.mul_div_cancel'
    exact (Nat.even_mul_pred_self (K + 1)).two_dvd
  simp only [Nat.add_sub_cancel] at heven ⊢
  have hsq : 1 + 8 * ((K + 1) * K / 2) = (2 * K + 1) * (2 * K + 1) := by
    have : 8 * ((K + 1) * K / 2) = 4 * ((K + 1) * K) := by omega
    rw [this]
    ring
  unfold inferred_node_count
  rw [hsq, Nat.sqrt_eq, if_pos rfl]
  omega

end graph

/-- C20: for every edge count `E >= 1`, the node count that `parse_from`
derives, modelled by `inferred_node_count`, is
`ceil((1 + sqrt(1 + 8 E)) / 2)` in real arithmetic; it is the least `N` with
`N (N - 1) / 2 >= E`; and it equals `N` whenever `E = N (N - 1) / 2` for some
`N >= 2`. -/
theorem C20_inferred_node_count_least (E : Nat) (hE : 1 ≤ E) :
    graph.inferred_node_count E = ⌈(1 + Real.sqrt (1 + 8 * (E : ℝ))) / 2⌉₊ ∧
    E ≤ graph.inferred_node_count E * (graph.inferred_node_count E - 1) / 2 ∧
    (∀ M, E ≤ M * (M - 1) / 2 → graph.inferred_node_count E ≤ M) ∧
    (∀ N, 2 ≤ N → E = N * (N - 1) / 2 → graph.inferred_node_count E = N) := by
  obtain ⟨K, hK, hup, hlow⟩ := graph.inferred_node_count_spec E
  rw [hK]
  refine ⟨?_, ?_, ?_, ?_⟩
  · symm
    rw [Nat.ceil_eq_iff (by omega)]
    have hupR : (1 + 8 * (E : ℝ)) ≤ (2 * (K : ℝ) + 1) ^ 2 := by
      have : ((1 + 8 * E : ℕ) : ℝ) ≤ (((2 * K + 1) * (2 * K + 1) : ℕ) : ℝ) := by
        exact_mod_cast hup
      push_cast at this
      nlinarith
    have hpos : (0 : ℝ) ≤ 1 + 8 * (E : ℝ) := by positivity
    constructor
    · simp only [Nat.add_sub_cancel]
      rcases Nat.eq_zero_or_pos K with h0 | hKpos
      · subst h0
        have : (0 : ℝ) ≤ Real.sqrt (1 + 8 * (E : ℝ)) := Real.sqrt_nonneg _
        simp
        linarith
      · obtain ⟨J, rfl⟩ : ∃ J, K = J + 1 := ⟨K - 1, by omega⟩
        have hl := hlow J rfl
        have hlR : (2 * (J : ℝ) + 1) ^ 2 < 1 + 8 * (E : ℝ) := by
          have : (((2 * J + 1) * (2 * J + 1) : ℕ) : ℝ) < ((1 + 8 * E : ℕ) : ℝ) := by
            exact_mod_cast hl
          push_cast at this
          nlinarith
        have hs : 2 * (J : ℝ) + 1 < Real.sqrt (1 + 8 * (E : ℝ)) := by
          rw [Real.lt_sqrt (by positivity)]
          exact hlR
        push_cast
        linarith
    · have hs : Real.sqrt (1 + 8 * (E : ℝ)) ≤ 2 * (K : ℝ) + 1 := by
        rw [Real.sqrt_le_left (by positivity)]
        exact hupR
      push_cast
      linarith
  · rw [Nat.le_div_iff_mul_le (by decide)]
    simp only [Nat.add_sub_cancel]
    nlinarith
  · intro M hM
    rw [Nat.le_div_iff_mul_le (by decide)] at hM
    by_contra hc
    have hMK : M ≤ K := by omega
    rcases Nat.eq_zero_or_pos K with h0 | hKpos
    · subst h0
      have : M = 0 := by omega
      subst this
      simp at hM
      omega
    · obtain ⟨J, rfl⟩ : ∃ J, K = J + 1 := ⟨K - 1, by omega⟩
      have hl := hlow J rfl
      have hmono : M * (M - 1) ≤ (J + 1) * J := Nat.mul_le_mul hMK (by omega)
      nlinarith
  · intro N hN hEN
    rw [← hK, hEN]
    exact graph.inferred_node_count_complete N (by omega)

/-- Witness of C20: three edges. -/
theorem C20_inferred_node_count_least_witness :
    graph.inferred_node_count 3 = ⌈(1 + Real.sqrt (1 + 8 * ((3 : ℕ) : ℝ))) / 2⌉₊ ∧
    3 ≤ graph.inferred_node_count 3 * (graph.inferred_node_count 3 - 1) / 2 ∧
    (∀ M, 3 ≤ M * (M - 1) / 2 → graph.inferred_node_count 3 ≤ M) ∧
    (∀ N, 2 ≤ N → 3 = N * (N - 1) / 2 → graph.inferred_node_count 3 = N) :=
  C20_inferred_node_count_least 3 (by decide)

/-! ## The instrumented run -/

namespace graph

theorem except_map_fst_ok {α β : Type} {r : Except failure (α × β)} {x : α × β}
    (h : r = .ok x) : r.map Prod.fst = .ok x.1 := by
  rw [h]; rfl

/-- Dropping the log from an instrumented loop gives the loop. -/
theorem foldlM_erase {σ β : Type} (f : σ → Nat → Except failure σ)
    (f' : σ × β → Nat → Except failure (σ × β))
    (h : ∀ st x, (f' st x).map Prod.fst = f st.1 x) :
    ∀ (xs : List Nat) (st : σ × β), (xs.foldlM f' st).map Prod.fst = xs.foldlM f st.1 := by
  intro xs
  induction xs with
  | nil => intro st; rfl
  | cons x xs ih =>
    intro st
    rw [List.foldlM_cons, List.foldlM_cons, ← h st x]
    cases f' st x with
    | error e => rfl
    | ok st1 => exact ih st1

theorem previous_node_body_traced_erase (g : bhk.graph) (N n s k prev : Nat)
    (st : List Nat × List access) (p : Nat) :
    (previous_node_body_traced g N n s k prev st p).map Prod.fst =
      previous_node_body g N n s k prev st.1 p := by
  unfold previous_node_body_traced previous_node_body
  cases shl1U p with
  | error e => rfl
  | ok bit =>
    simp only [bind, Except.bind]
    split
    · rfl
    · cases lowest_cost st.1 N n prev p with
      | error e => rfl
      | ok pc =>
        cases g._distance.get p k with
        | error e => rfl
        | ok c =>
          cases lowest_cost st.1 N n s k with
          | error e => rfl
          | ok b =>
            simp only []
            cases lowest_cost_assign st.1 N n s k (min b ((pc + c) % 2 ^ 32)) with
            | error e => rfl
            | ok T => rfl

theorem node_body_traced_erase (g : bhk.graph) (N n s : Nat)
    (st : List Nat × List access) (j : Nat) :
    (node_body_traced g N n s st j).map Prod.fst = node_body g N n s st.1 j := by
  unfold node_body_traced node_body
  cases shl1U j with
  | error e => rfl
  | ok bit =>
    simp only [bind, Except.bind]
    split
    · rfl
    · split
      · cases lowest_cost_assign st.1 N n s j 0 with
        | error e => rfl
        | ok T => rfl
      · exact foldlM_erase _ _ (previous_node_body_traced_erase g N n s j _) _ st

theorem set_body_traced_erase (g : bhk.graph) (N n : Nat)
    (st : List Nat × List access) (s : Nat) :
    (set_body_traced g N n st s).map Prod.fst = set_body g N n st.1 s :=
  foldlM_erase _ _ (node_body_traced_erase g N n s) _ st

/-- The instrumented loops compute the table of the loops. -/
theorem cost_table_traced_erase (g : bhk.graph) :
    (cost_table_traced g).map Prod.fst = cost_table g := by
  unfold cost_table_traced cost_table
  dsimp only
  cases shl1U g._nodes.length with
  | error e => rfl
  | ok N =>
    simp only [bind, Except.bind]
    exact foldlM_erase _ _ (set_body_traced_erase g N g._nodes.length) _ _

/-- The instrumented `shortest_path` returns what `shortest_path` returns. -/
theorem shortest_path_traced_erase (g : bhk.graph) :
    (shortest_path_traced g).map Prod.fst = shortest_path g := by
  have h := (cost_table_traced_erase g).symm
  unfold shortest_path_traced shortest_path
  dsimp only
  rw [h]
  cases shl1U g._nodes.length with
  | error e => rfl
  | ok N =>
    simp only [bind, Except.bind]
    cases cost_table_traced g with
    | error e => rfl
    | ok st =>
      simp only [Except.map]
      cases lowest_cost st.1 N g._nodes.length (N - 1) 0 with
      | error e => rfl
      | ok v => rfl

theorem written_assign_self (older : List access) (S k old v : Nat) :
    written (.assign S k old v :: older) S k = some v := by
  simp [written]

theorem written_assign_ne (older : List access) {S k S' k' : Nat} (old v : Nat)
    (h : ¬ (S' = S ∧ k' = k)) :
    written (.assign S' k' old v :: older) S k = written older S k := by
  simp [written, h]

/-- A value that a log gives as most recently assigned was stored by an
assignment of the log. -/
theorem written_mem (log : List access) (S k v : Nat) (h : written log S k = some v) :
    ∃ old, access.assign S k old v ∈ log := by
  induction log with
  | nil => simp [written] at h
  | cons e older ih =>
    cases e with
    | assign S' k' old' v' =>
      by_cases hc : S' = S ∧ k' = k
      · obtain ⟨rfl, rfl⟩ := hc
        rw [written_assign_self] at h
        cases h
        exact ⟨old', List.mem_cons_self _ _⟩
      · rw [written_assign_ne older old' v' hc] at h
        obtain ⟨old, ho⟩ := ih h
        exact ⟨old, List.mem_cons_of_mem _ ho⟩
    | preceding a b c d e' =>
      obtain ⟨old, ho⟩ := ih h
      exact ⟨old, List.mem_cons_of_mem _ ho⟩
    | best a b c =>
      obtain ⟨old, ho⟩ := ih h
      exact ⟨old, List.mem_cons_of_mem _ ho⟩
    | result a b c =>
      obtain ⟨old, ho⟩ := ih h
      exact ⟨old, List.mem_cons_of_mem _ ho⟩

/-- In a log that is `log_ok`, every access is `access_ok` with respect to the
accesses before it. -/
theorem log_ok_split (newer : List access) (e : access) (older : List access)
    (h : log_ok (newer ++ e :: older)) : access_ok older e := by
  induction newer with
  | nil => exact h.1
  | cons x newer ih => exact ih h.2

theorem done_succ_self {s j : Nat} (hbit : s.testBit j = true) : done s (j + 1) s j :=
  ⟨hbit, Or.inr ⟨rfl, Nat.lt_succ_self _⟩⟩

theorem done_succ_of_ne {s j S k : Nat} (hne : ¬ (S = s ∧ k = j)) :
    done s (j + 1) S k ↔ done s j S k := by
  unfold done
  constructor
  · rintro ⟨hb, h | ⟨h1, h2⟩⟩
    · exact ⟨hb, Or.inl h⟩
    · refine ⟨hb, Or.inr ⟨h1, ?_⟩⟩
      have : k ≠ j := fun h => hne ⟨h1, h⟩
      omega
  · rintro ⟨hb, h | ⟨h1, h2⟩⟩
    · exact ⟨hb, Or.inl h⟩
    · exact ⟨hb, Or.inr ⟨h1, by omega⟩⟩

theorem done_succ_of_not_bit {s j S k : Nat} (hbit : s.testBit j = false) :
    done s (j + 1) S k ↔ done s j S k := by
  by_cases hne : S = s ∧ k = j
  · obtain ⟨rfl, rfl⟩ := hne
    unfold done
    rw [hbit]
    simp
  · exact done_succ_of_ne hne

theorem done_next_set {n s S k : Nat} (hs : s < 2 ^ n) (h : done (s + 1) 0 S k) :
    done s n S k := by
  obtain ⟨hb, h | ⟨_, h2⟩⟩ := h
  · refine ⟨hb, ?_⟩
    by_cases h' : S < s
    · exact Or.inl h'
    · have hS : S = s := by omega
      exact Or.inr ⟨hS, testBit_lt_of_lt_two_pow (hS ▸ hs) hb⟩
  · omega

/-- One iteration of the instrumented innermost loop, in closed form. -/
theorem previous_node_body_traced_ok (g : bhk.graph) (hn : g._nodes.length ≤ 31)
    (hget : ∀ a b, a < g._nodes.length → b < g._nodes.length →
      g._distance.get a b = .ok (g._distance.entry a b)) {st : List Nat × List access}
    (hlen : st.1.length = 2 ^ g._nodes.length * g._nodes.length) {s k prev p : Nat}
    (hs : s < 2 ^ g._nodes.length) (hk : k < g._nodes.length)
    (hprev : prev < 2 ^ g._nodes.length) (hp : p < g._nodes.length) :
    previous_node_body_traced g (2 ^ g._nodes.length) g._nodes.length s k prev st p =
      .ok (if prev.testBit p then
            (st.1.set (s * g._nodes.length + k)
              (min (cell st.1 g._nodes.length s k)
                ((cell st.1 g._nodes.length prev p + g._distance.entry p k) % 2 ^ 32)),
             .assign s k (cell st.1 g._nodes.length s k)
                (min (cell st.1 g._nodes.length s k)
                  ((cell st.1 g._nodes.length prev p + g._distance.entry p k) % 2 ^ 32)) ::
              .best s k (cell st.1 g._nodes.length s k) ::
              .preceding s k prev p (cell st.1 g._nodes.length prev p) :: st.2)
          else st) := by
  have hp32 : p < 32 := by omega
  have hget' : g._distance.get p k = .ok (g._distance.entry p k) := hget p k hp hk
  unfold previous_node_body_traced
  rw [shl1U_ok hp32]
  by_cases hbit : prev.testBit p = true
  · have hne : ¬ (prev &&& 2 ^ p = 0) := by
      rw [and_two_pow_eq_zero]; simp [hbit]
    simp only [bind, Except.bind, hne, if_false, lowest_cost_ok hlen hprev hp, hget',
      lowest_cost_ok hlen hs hk, lowest_cost_assign_ok hlen hs hk, hbit, if_true, pure,
      Except.pure]
  · have hbit' : prev.testBit p = false := by simpa using hbit
    have he : prev &&& 2 ^ p = 0 := (and_two_pow_eq_zero _ _).2 hbit'
    simp [bind, Except.bind, he, hbit', pure, Except.pure]

/-- An assignment to the entry `(s, j)` that is `access_ok`, made in a state
that satisfies the invariant, leaves a state that satisfies the invariant but
for the completed entries, which are those of before and `(s, j)`. -/
theorem traced_inv_assign (g : bhk.graph) {s j s' j' : Nat} {st : List Nat × List access}
    (hinv : traced_inv g s' j' st) (hs : s < 2 ^ g._nodes.length) (hj : j < g._nodes.length)
    (v : Nat) (middle : List access)
    (hmid : ∀ S k, written (middle ++ st.2) S k = written st.2 S k)
    (hok : log_ok (middle ++ st.2)) (hv : v ≤ cell st.1 g._nodes.length s j) :
    (st.1.set (s * g._nodes.length + j) v).length = 2 ^ g._nodes.length * g._nodes.length ∧
    (∀ S k, S < 2 ^ g._nodes.length → k < g._nodes.length →
      cell (st.1.set (s * g._nodes.length + j) v) g._nodes.length S k =
        (written (.assign s j (cell st.1 g._nodes.length s j) v :: (middle ++ st.2)) S k).getD
          UINT32_MAX) ∧
    log_ok (.assign s j (cell st.1 g._nodes.length s j) v :: (middle ++ st.2)) ∧
    (written (.assign s j (cell st.1 g._nodes.length s j) v :: (middle ++ st.2)) s j).isSome
      = true ∧
    ∀ S k, (written st.2 S k).isSome = true →
      (written (.assign s j (cell st.1 g._nodes.length s j) v :: (middle ++ st.2)) S k).isSome
        = true := by
  obtain ⟨hlen, hcons, hlog, _⟩ := hinv
  refine ⟨by simp [hlen], ?_, ?_, by rw [written_assign_self]; rfl, ?_⟩
  · intro S k hS hk
    by_cases hc : S = s ∧ k = j
    · obtain ⟨rfl, rfl⟩ := hc
      rw [cell_set_self hlen hS hk, written_assign_self]
      rfl
    · have hc' : ¬ (s = S ∧ j = k) := fun h => hc ⟨h.1.symm, h.2.symm⟩
      rw [cell_set_ne hj hk hc, written_assign_ne _ _ _ hc', hmid, hcons S k hS hk]
  · refine ⟨⟨hv, ?_⟩, hok⟩
    rw [hmid, hcons s j hs hj]
  · intro S k h
    by_cases hc : s = S ∧ j = k
    · obtain ⟨rfl, rfl⟩ := hc
      rw [written_assign_self]; rfl
    · rw [written_assign_ne _ _ _ hc, hmid]
      exact h

/-- The instrumented innermost loop keeps the invariant, and after it the entry
`(s, j)` has been assigned if the previous set has a member. -/
theorem previous_node_loop_traced (g : bhk.graph) (hn : g._nodes.length ≤ 31)
    (hget : ∀ a b, a < g._nodes.length → b < g._nodes.length →
      g._distance.get a b = .ok (g._distance.entry a b)) {st0 : List Nat × List access}
    (s j : Nat) (hinv : traced_inv g s j st0) (hs : s < 2 ^ g._nodes.length)
    (hj : j < g._nodes.length) (hbit : s.testBit j = true) :
    ∃ st, (List.range g._nodes.length).foldlM
        (previous_node_body_traced g (2 ^ g._nodes.length) g._nodes.length s j (s ^^^ 2 ^ j))
        st0 = .ok st ∧
      traced_inv g s j st ∧
      ((∃ m, m < g._nodes.length ∧ (s ^^^ 2 ^ j).testBit m = true) →
        (written st.2 s j).isSome = true) := by
  have hlt := xor_two_pow_lt hbit
  have hprevN : s ^^^ 2 ^ j < 2 ^ g._nodes.length := by omega
  refine foldlM_range_inv _
    (fun p st => traced_inv g s j st ∧
      ((∃ m, m < p ∧ (s ^^^ 2 ^ j).testBit m = true) → (written st.2 s j).isSome = true))
    g._nodes.length ?_ st0 ⟨hinv, fun ⟨m, hm, _⟩ => absurd hm (Nat.not_lt_zero _)⟩
  intro p st hp ⟨hI, hex⟩
  refine ⟨_, previous_node_body_traced_ok g hn hget hI.1 hs hj hprevN hp, ?_⟩
  by_cases hb : (s ^^^ 2 ^ j).testBit p = true
  · simp only [hb, if_true]
    have hdone : done s j (s ^^^ 2 ^ j) p := ⟨hb, Or.inl hlt⟩
    have hsome := hI.2.2.2 _ _ hdone
    have hread : written st.2 (s ^^^ 2 ^ j) p = some (cell st.1 g._nodes.length (s ^^^ 2 ^ j) p) := by
      have hc := hI.2.1 _ _ hprevN hp
      cases hw : written st.2 (s ^^^ 2 ^ j) p with
      | none => rw [hw] at hsome; cases hsome
      | some x => rw [hw] at hc; rw [hc]; rfl
    have hprev0 : s ^^^ 2 ^ j ≠ 0 := by
      intro h0
      rw [h0] at hb
      simp at hb
    obtain ⟨h1, h2, h3, h4, h5⟩ := traced_inv_assign g hI hs hj
      (min (cell st.1 g._nodes.length s j)
        ((cell st.1 g._nodes.length (s ^^^ 2 ^ j) p + g._distance.entry p j) % 2 ^ 32))
      [.best s j (cell st.1 g._nodes.length s j),
       .preceding s j (s ^^^ 2 ^ j) p (cell st.1 g._nodes.length (s ^^^ 2 ^ j) p)]
      (fun S k => rfl)
      ⟨hI.2.1 s j hs hj, ⟨hprev0, hb, hlt, hread⟩, hI.2.2.1⟩
      (Nat.min_le_left _ _)
    exact ⟨⟨h1, h2, h3, fun S k hd => h5 S k (hI.2.2.2 S k hd)⟩, fun _ => h4⟩
  · simp only [hb, if_false]
    refine ⟨hI, ?_⟩
    rintro ⟨m, hm, hbm⟩
    have hne : m ≠ p := by
      rintro rfl
      exact hb hbm
    exact hex ⟨m, by omega, hbm⟩

/-- One iteration of the instrumented middle loop. -/
theorem node_body_traced_inv (g : bhk.graph) (hn : g._nodes.length ≤ 31)
    (hget : ∀ a b, a < g._nodes.length → b < g._nodes.length →
      g._distance.get a b = .ok (g._distance.entry a b)) {s j : Nat}
    {st : List Nat × List access} (hinv : traced_inv g s j st)
    (hs : s < 2 ^ g._nodes.length) (hj : j < g._nodes.length) :
    ∃ st', node_body_traced g (2 ^ g._nodes.length) g._nodes.length s st j = .ok st' ∧
      traced_inv g s (j + 1) st' := by
  have hj32 : j < 32 := by omega
  unfold node_body_traced
  rw [shl1U_ok hj32]
  by_cases hbit : s.testBit j = true
  · have hne : ¬ (s &&& 2 ^ j = 0) := by
      rw [and_two_pow_eq_zero]; simp [hbit]
    have hstep : ∀ st' : List Nat × List access, traced_inv g s j st' →
        (written st'.2 s j).isSome = true → traced_inv g s (j + 1) st' := by
      intro st' hI hw
      refine ⟨hI.1, hI.2.1, hI.2.2.1, ?_⟩
      intro S k hd
      by_cases hc : S = s ∧ k = j
      · obtain ⟨rfl, rfl⟩ := hc
        exact hw
      · exact hI.2.2.2 S k ((done_succ_of_ne hc).1 hd)
    by_cases hprev : s ^^^ 2 ^ j = 0
    · obtain ⟨h1, h2, h3, h4, h5⟩ := traced_inv_assign g hinv hs hj 0 [] (fun S k => rfl)
        hinv.2.2.1 (Nat.zero_le _)
      refine ⟨(st.1.set (s * g._nodes.length + j) 0,
        .assign s j (cell st.1 g._nodes.length s j) 0 :: st.2), ?_, ?_⟩
      · simp [bind, Except.bind, hne, hprev, lowest_cost_assign_ok hinv.1 hs hj, pure,
          Except.pure]
      · exact hstep _ ⟨h1, h2, h3, fun S k hd => h5 S k (hinv.2.2.2 S k hd)⟩ h4
    · obtain ⟨st', hst', hI, hex⟩ := previous_node_loop_traced g hn hget s j hinv hs hj hbit
      refine ⟨st', ?_, ?_⟩
      · simp only [bind, Except.bind, hne, hprev, if_false]
        exact hst'
      · apply hstep st' hI
        apply hex
        obtain ⟨m, hm⟩ := Nat.ne_zero_implies_bit_true hprev
        have hlt := xor_two_pow_lt hbit
        exact ⟨m, testBit_lt_of_lt_two_pow (by omega) hm, hm⟩
  · have hbit' : s.testBit j = false := by simpa using hbit
    have he : s &&& 2 ^ j = 0 := (and_two_pow_eq_zero _ _).2 hbit'
    refine ⟨st, by simp [bind, Except.bind, he, pure, Except.pure], hinv.1, hinv.2.1,
      hinv.2.2.1, ?_⟩
    intro S k hd
    exact hinv.2.2.2 S k ((done_succ_of_not_bit hbit').1 hd)

/-- One iteration of the instrumented outer loop. -/
theorem set_body_traced_inv (g : bhk.graph) (hn : g._nodes.length ≤ 31)
    (hget : ∀ a b, a < g._nodes.length → b < g._nodes.length →
      g._distance.get a b = .ok (g._distance.entry a b)) {s : Nat}
    {st : List Nat × List access} (hinv : traced_inv g s 0 st)
    (hs : s < 2 ^ g._nodes.length) :
    ∃ st', set_body_traced g (2 ^ g._nodes.length) g._nodes.length st s = .ok st' ∧
      traced_inv g (s + 1) 0 st' := by
  obtain ⟨st', hst', hinv'⟩ := foldlM_range_inv
    (node_body_traced g (2 ^ g._nodes.length) g._nodes.length s)
    (fun j st => traced_inv g s j st)
    g._nodes.length (fun j st hj hI => node_body_traced_inv g hn hget hI hs hj) st hinv
  exact ⟨st', hst', hinv'.1, hinv'.2.1, hinv'.2.2.1,
    fun S k hd => hinv'.2.2.2 S k (done_next_set hs hd)⟩

/-- The instrumented loops run to their end and leave a state that satisfies
the invariant. -/
theorem cost_table_traced_ok (g : bhk.graph) (hn : g._nodes.length ≤ 31)
    (hget : ∀ a b, a < g._nodes.length → b < g._nodes.length →
      g._distance.get a b = .ok (g._distance.entry a b)) :
    ∃ st, cost_table_traced g = .ok st ∧ traced_inv g (2 ^ g._nodes.length) 0 st := by
  have hn32 : g._nodes.length < 32 := by omega
  have hpos : 0 < 2 ^ g._nodes.length := Nat.two_pow_pos _
  have h0 : traced_inv g 1 0
      (List.replicate (2 ^ g._nodes.length * g._nodes.length) UINT32_MAX, []) := by
    refine ⟨by simp, ?_, trivial, ?_⟩
    · intro S k hS hk
      have hlt := table_index_lt hS hk
      simp [cell, List.getElem?_replicate, hlt, written]
    · rintro S k ⟨hb, h | ⟨_, h⟩⟩
      · have : S = 0 := by omega
        subst this
        simp at hb
      · omega
  obtain ⟨st, hst, hinv⟩ := foldlM_range'_inv
    (set_body_traced g (2 ^ g._nodes.length) g._nodes.length)
    (fun s st => traced_inv g s 0 st)
    1 (2 ^ g._nodes.length - 1)
    (fun s st _ hs hI => set_body_traced_inv g hn hget hI (by omega)) _ h0
  refine ⟨st, ?_, ?_⟩
  · unfold cost_table_traced
    dsimp only
    rw [shl1U_ok hn32]
    exact hst
  · have : 1 + (2 ^ g._nodes.length - 1) = 2 ^ g._nodes.length := by omega
    rw [this] at hinv
    exact hinv

/-- The instrumented `shortest_path` returns a value and a log in which every
access is `access_ok`. -/
theorem shortest_path_traced_ok (g : bhk.graph) (hn1 : 1 ≤ g._nodes.length)
    (hn : g._nodes.length ≤ 31)
    (hget : ∀ a b, a < g._nodes.length → b < g._nodes.length →
      g._distance.get a b = .ok (g._distance.entry a b)) :
    ∃ v older, shortest_path_traced g =
        .ok (v, .result (2 ^ g._nodes.length - 1) 0 v :: older) ∧
      log_ok (.result (2 ^ g._nodes.length - 1) 0 v :: older) := by
  obtain ⟨st, hst, hinv⟩ := cost_table_traced_ok g hn hget
  have hn32 : g._nodes.length < 32 := by omega
  have hpos : 1 < 2 ^ g._nodes.length := Nat.one_lt_two_pow (by omega)
  have hbit : (2 ^ g._nodes.length - 1).testBit 0 = true := by simp; omega
  have hS : 2 ^ g._nodes.length - 1 < 2 ^ g._nodes.length := by omega
  have hsome := hinv.2.2.2 _ _ ⟨hbit, Or.inl hS⟩
  have hread : written st.2 (2 ^ g._nodes.length - 1) 0 =
      some (cell st.1 g._nodes.length (2 ^ g._nodes.length - 1) 0) := by
    have hc := hinv.2.1 _ _ hS hn1
    cases hw : written st.2 (2 ^ g._nodes.length - 1) 0 with
    | none => rw [hw] at hsome; cases hsome
    | some x => rw [hw] at hc; rw [hc]; rfl
  refine ⟨cell st.1 g._nodes.length (2 ^ g._nodes.length - 1) 0, st.2, ?_, ?_, hinv.2.2.1⟩
  · unfold shortest_path_traced
    dsimp only
    rw [shl1U_ok hn32, hst]
    simp only [bind, Except.bind]
    rw [lowest_cost_ok hinv.1 hS hn1]
    rfl
  · exact ⟨by omega, hbit, hread⟩

end graph

/-! ## Claims on the accesses to the cost table -/

/-- C16: for every graph with `1 <= n <= 31` nodes (on an `adjacency_matrix` of
size at least `n`), the instrumented `shortest_path()` returns the value of
`shortest_path()` and a log of its accesses to the cost table, ending with the
final read `lowest_cost(all_nodes, 0)`, in which every read of `preceding_cost`
through `lowest_cost(previous_set, previous_node)` has `previous_set` non-empty,
holding `previous_node` and numerically smaller than `set`, and returns the
value most recently assigned to that entry by an assignment earlier in the log;
and so does the final read. Neither read returns an entry that is still
untouched. -/
theorem C16_reads_assigned_entries (g : graph) (size : Nat) (us : List (Nat × Nat × Nat))
    (hus : ∀ u ∈ us, u.1 < size ∧ u.2.1 < size)
    (hd : g._distance = ((adjacency_matrix.adjacency_matrix size).updates us).2)
    (hn1 : 1 ≤ g._nodes.length) (hn : g._nodes.length ≤ 31) (hsize : g._nodes.length ≤ size) :
    ∃ v log, g.shortest_path_traced = .ok (v, log) ∧ g.shortest_path = .ok v ∧
      (∃ older, log = .result (2 ^ g._nodes.length - 1) 0 v :: older) ∧
      (∀ newer older set node previous_set previous_node value,
        log = newer ++ .preceding set node previous_set previous_node value :: older →
        previous_set ≠ 0 ∧ previous_set.testBit previous_node = true ∧ previous_set < set ∧
        graph.written older previous_set previous_node = some value ∧
        ∃ old, graph.access.assign previous_set previous_node old value ∈ older) ∧
      (∀ newer older set node value,
        log = newer ++ .result set node value :: older →
        set ≠ 0 ∧ set.testBit node = true ∧
        graph.written older set node = some value ∧
        ∃ old, graph.access.assign set node old value ∈ older) := by
  have hget := graph.distance_get_ok g size us hus hd hsize
  obtain ⟨v, older, hrun, hlog⟩ := graph.shortest_path_traced_ok g hn1 hn hget
  refine ⟨v, _, hrun, ?_, ⟨older, rfl⟩, ?_, ?_⟩
  · rw [← graph.shortest_path_traced_erase, hrun]
    rfl
  · intro newer older' set node previous_set previous_node value hsplit
    rw [hsplit] at hlog
    obtain ⟨h1, h2, h3, h4⟩ := graph.log_ok_split _ _ _ hlog
    exact ⟨h1, h2, h3, h4, graph.written_mem _ _ _ _ h4⟩
  · intro newer older' set node value hsplit
    rw [hsplit] at hlog
    obtain ⟨h1, h2, h3⟩ := graph.log_ok_split _ _ _ hlog
    exact ⟨h1, h2, h3, graph.written_mem _ _ _ _ h3⟩

/-- Witness of C16: the graph of three cities. -/
theorem C16_reads_assigned_entries_witness :
    ∃ v log, graph.london.shortest_path_traced = .ok (v, log) ∧
      graph.london.shortest_path = .ok v ∧
      (∃ older, log = .result (2 ^ graph.london._nodes.length - 1) 0 v :: older) ∧
      (∀ newer older set node previous_set previous_node value,
        log = newer ++ .preceding set node previous_set previous_node value :: older →
        previous_set ≠ 0 ∧ previous_set.testBit previous_node = true ∧ previous_set < set ∧
        graph.written older previous_set previous_node = some value ∧
        ∃ old, graph.access.assign previous_set previous_node old value ∈ older) ∧
      (∀ newer older set node value,
        log = newer ++ .result set node value :: older →
        set ≠ 0 ∧ set.testBit node = true ∧
        graph.written older set node = some value ∧
        ∃ old, graph.access.assign set node old value ∈ older) :=
  C16_reads_assigned_entries graph.london 4 [(1, 2, 464), (1, 3, 518), (2, 3, 141)]
    (by decide) rfl (by decide) (by decide) (by decide)

/-- C19: for every graph with `n <= 31` nodes (on an `adjacency_matrix` of size
at least `n`), the cost table holds `UINT32_MAX` in every entry when the outer
loop starts, and in the log of the instrumented loops, which compute the table
of `shortest_path()`, every assignment (the base-case assignment or the min
update) stores a value less than or equal to the value the entry held just
before, that value being the one most recently assigned to the entry or else
the initial `UINT32_MAX`. -/
theorem C19_writes_only_decrease (g : graph) (size : Nat) (us : List (Nat × Nat × Nat))
    (hus : ∀ u ∈ us, u.1 < size ∧ u.2.1 < size)
    (hd : g._distance = ((adjacency_matrix.adjacency_matrix size).updates us).2)
    (hn : g._nodes.length ≤ 31) (hsize : g._nodes.length ≤ size) :
    g.table_at_set 1 =
      .ok (List.replicate (2 ^ g._nodes.length * g._nodes.length) UINT32_MAX) ∧
    ∃ T log, g.cost_table_traced = .ok (T, log) ∧ g.cost_table = .ok T ∧
      ∀ newer older set node old value,
        log = newer ++ .assign set node old value :: older →
        value ≤ old ∧ old = (graph.written older set node).getD UINT32_MAX := by
  have hget := graph.distance_get_ok g size us hus hd hsize
  have hn32 : g._nodes.length < 32 := by omega
  obtain ⟨st, hrun, hinv⟩ := graph.cost_table_traced_ok g hn hget
  refine ⟨?_, st.1, st.2, hrun, ?_, ?_⟩
  · unfold graph.table_at_set
    dsimp only
    rw [shl1U_ok hn32]
    rfl
  · rw [← graph.cost_table_traced_erase, hrun]
    rfl
  · intro newer older set node old value hsplit
    have hlog := hinv.2.2.1
    rw [hsplit] at hlog
    exact graph.log_ok_split _ _ _ hlog

/-- Witness of C19: the graph of three cities. -/
theorem C19_writes_only_decrease_witness :
    graph.london.table_at_set 1 =
      .ok (List.replicate (2 ^ graph.london._nodes.length * graph.london._nodes.length)
        UINT32_MAX) ∧
    ∃ T log, graph.london.cost_table_traced = .ok (T, log) ∧ graph.london.cost_table = .ok T ∧
      ∀ newer older set node old value,
        log = newer ++ .assign set node old value :: older →
        value ≤ old ∧ old = (graph.written older set node).getD UINT32_MAX :=
  C19_writes_only_decrease graph.london 4 [(1, 2, 464), (1, 3, 518), (2, 3, 141)]
    (by decide) rfl (by decide) (by decide)

/-! ## The parser on a complete edge list -/

namespace graph

/-! ## The text of an edge list -/

theorem span_append_cons {p : Char → Bool} (l : List Char) (c : Char) (rest : List Char)
    (hl : ∀ x ∈ l, p x = true) (hc : p c = false) :
    (l ++ c :: rest).span p = (l, c :: rest) := by
  rw [List.span_eq_take_drop, List.takeWhile_append_of_pos hl, List.dropWhile_append_of_pos hl]
  simp [List.takeWhile_cons, List.dropWhile_cons, hc]

theorem span_all {p : Char → Bool} (l : List Char) (hl : ∀ x ∈ l, p x = true) :
    l.span p = (l, []) := by
  have := List.span_eq_take_drop (p := p) l
  rw [this]
  have h1 : l.takeWhile p = l := by
    rw [List.takeWhile_eq_self_iff]
    exact hl
  have h2 : l.dropWhile p = [] := by
    rw [List.dropWhile_eq_nil_iff]
    exact hl
  rw [h1, h2]

/-- A rendered line matches the pattern, with the names and the digits of the
edge as its capture groups. -/
theorem regex_match_render_line (e : String × String × String) (h1 : is_name e.1)
    (h2 : is_name e.2.1) (h3 : is_digits e.2.2) :
    regex_match (render_line e) = some e := by
  obtain ⟨a, b, d⟩ := e
  simp only at h1 h2 h3
  unfold regex_match render_line
  simp only
  rw [span_append_cons a.toList ' ' _ h1.2 (by decide)]
  cases ha : a.toList with
  | nil => exact absurd ha h1.1
  | cons a0 as =>
    simp only
    rw [span_append_cons b.toList ' ' _ h2.2 (by decide)]
    cases hb : b.toList with
    | nil => exact absurd hb h2.1
    | cons b0 bs =>
      simp only
      have hall : d.toList.all Char.isDigit = true := by
        rw [List.all_eq_true]
        exact h3.2
      rw [if_pos ⟨h3.1, hall⟩, ← ha, ← hb]
      rfl

theorem stoul_ok (s : String) (h : digits_value s < 2 ^ 64) :
    stoul s = .ok (digits_value s) := by
  unfold digits_value at h
  unfold stoul digits_value
  rw [if_pos h]

theorem not_mem_render_line (e : String × String × String) (h1 : is_name e.1)
    (h2 : is_name e.2.1) (h3 : is_digits e.2.2) : '\n' ∉ render_line e := by
  unfold render_line
  intro h
  simp only [List.mem_append, List.mem_cons] at h
  have hw : word_char '\n' = false := by decide
  have hd : Char.isDigit '\n' = false := by decide
  rcases h with h | h | h | h | h | h | h | h | h | h
  · have := h1.2 _ h; rw [hw] at this; cases this
  · revert h; decide
  · revert h; decide
  · revert h; decide
  · revert h; decide
  · have := h2.2 _ h; rw [hw] at this; cases this
  · revert h; decide
  · revert h; decide
  · revert h; decide
  · have := h3.2 _ h; rw [hd] at this; cases this

theorem getlines_append (l : List Char) (hl : '\n' ∉ l) :
    ∀ (current rest : List Char),
      getlines current (l ++ '\n' :: rest) = (current.reverse ++ l) :: getlines [] rest := by
  induction l with
  | nil => intro current rest; simp [getlines]
  | cons c l ih =>
    intro current rest
    have hc : c ≠ '\n' := fun h => hl (h ▸ List.mem_cons_self _ _)
    have hl' : '\n' ∉ l := fun h => hl (List.mem_cons_of_mem _ h)
    show getlines current (c :: (l ++ '\n' :: rest)) = _
    rw [getlines, if_neg hc, ih hl']
    simp

/-- The lines that `std::getline` extracts from the text of an edge list are
the rendered lines, and the text has one line break per edge. -/
theorem getlines_render (edges : List (String × String × String))
    (h : ∀ e ∈ edges, is_name e.1 ∧ is_name e.2.1 ∧ is_digits e.2.2) :
    getlines [] (render edges).toList = edges.map render_line ∧
    (render edges).toList.count '\n' = edges.length := by
  unfold render
  show getlines [] (edges.flatMap fun e => render_line e ++ ['\n']) = _ ∧
    (edges.flatMap fun e => render_line e ++ ['\n']).count '\n' = _
  induction edges with
  | nil => exact ⟨rfl, rfl⟩
  | cons e rest ih =>
    obtain ⟨h1, h2, h3⟩ := h e (List.mem_cons_self _ _)
    have hn := not_mem_render_line e h1 h2 h3
    obtain ⟨ih1, ih2⟩ := ih (fun x hx => h x (List.mem_cons_of_mem _ hx))
    constructor
    · simp only [List.flatMap_cons, List.append_assoc, List.singleton_append, List.map_cons]
      rw [getlines_append _ hn, ih1]
      simp
    · simp only [List.flatMap_cons, List.count_append, ih2, List.length_cons]
      rw [List.count_eq_zero_of_not_mem hn]
      simp
      omega

/-! ## The names of an edge list -/

theorem mem_add_name (seen : List String) (x y : String) :
    y ∈ add_name seen x ↔ y ∈ seen ∨ y = x := by
  unfold add_name
  split
  · constructor
    · exact Or.inl
    · rintro (h | rfl)
      · exact h
      · assumption
  · simp

theorem add_name_nodup (seen : List String) (x : String) (h : seen.Nodup) :
    (add_name seen x).Nodup := by
  unfold add_name
  split
  · exact h
  · rename_i hx
    rw [List.nodup_append]
    refine ⟨h, List.nodup_singleton x, ?_⟩
    intro a ha hb
    rw [List.mem_singleton] at hb
    exact hx (hb ▸ ha)

theorem indexOf_add_name (seen : List String) (x y : String) (h : y ∈ seen) :
    (add_name seen x).indexOf y = seen.indexOf y := by
  unfold add_name
  split
  · rfl
  · exact List.indexOf_append_of_mem h

theorem first_seen_append_singleton (done : List (String × String × String))
    (e : String × String × String) :
    first_seen (done ++ [e]) = add_name (add_name (first_seen done) e.1) e.2.1 := by
  simp [first_seen, List.foldl_append]

theorem first_seen_nodup (edges : List (String × String × String)) :
    (first_seen edges).Nodup := by
  induction edges using List.reverseRecOn with
  | nil => exact List.nodup_nil
  | append_singleton done e ih =>
    rw [first_seen_append_singleton]
    exact add_name_nodup _ _ (add_name_nodup _ _ ih)

theorem mem_first_seen (edges : List (String × String × String)) (x : String) :
    x ∈ first_seen edges ↔ ∃ e ∈ edges, x = e.1 ∨ x = e.2.1 := by
  induction edges using List.reverseRecOn with
  | nil => simp [first_seen]
  | append_singleton done e ih =>
    rw [first_seen_append_singleton, mem_add_name, mem_add_name, ih]
    constructor
    · rintro ((⟨e0, he0, h⟩ | h) | h)
      · exact ⟨e0, List.mem_append_left _ he0, h⟩
      · exact ⟨e, by simp, Or.inl h⟩
      · exact ⟨e, by simp, Or.inr h⟩
    · rintro ⟨e0, he0, h⟩
      rcases List.mem_append.1 he0 with h0 | h0
      · exact Or.inl (Or.inl ⟨e0, h0, h⟩)
      · rw [List.mem_singleton] at h0
        subst h0
        rcases h with h | h
        · exact Or.inl (Or.inr h)
        · exact Or.inr h

/-- The statement that inserts a name keeps `names_inv`, with the name added
to the names seen, and leaves the matrix alone. -/
theorem insert_node_names (seen : List String) (st : parse_state) (x : String)
    (h : names_inv seen st) :
    names_inv (add_name seen x) (insert_node st x) ∧
    (insert_node st x).distances = st.distances := by
  obtain ⟨h1, h2, h3, h4⟩ := h
  unfold insert_node add_name
  by_cases hx : x ∈ seen
  · rw [if_pos ((h2 x).2 hx), if_pos hx]
    exact ⟨⟨h1, h2, h3, h4⟩, rfl⟩
  · have hx' : x ∉ st.unique_nodes := fun hc => hx ((h2 x).1 hc)
    rw [if_neg hx', if_neg hx]
    refine ⟨⟨?_, ?_, ?_, ?_⟩, rfl⟩
    · simp [h1]
    · intro y
      simp only [List.mem_cons, List.mem_append, List.mem_singleton, h2 y, List.not_mem_nil,
        or_false]
      exact or_comm
    · intro y hy
      simp only [List.lookup_cons]
      by_cases hyx : y = x
      · subst hyx
        simp only [beq_self_eq_true]
        rw [List.indexOf_append_of_not_mem hx, h1]
        simp
      · have hbeq : (y == x) = false := by simpa using hyx
        simp only [hbeq]
        have hys : y ∈ seen := by
          rcases List.mem_append.1 hy with h | h
          · exact h
          · exact absurd (List.mem_singleton.1 h) hyx
        rw [h3 y hys, List.indexOf_append_of_mem hys]
    · rw [List.nodup_append]
      refine ⟨h4, List.nodup_singleton x, ?_⟩
      intro a ha hb
      rw [List.mem_singleton] at hb
      exact hx (hb ▸ ha)

theorem id_of_names (seen : List String) (st : parse_state) (x : String)
    (h : names_inv seen st) (hx : x ∈ seen) : id_of st x = seen.indexOf x + 1 := by
  unfold id_of
  rw [h.2.2.1 x hx]
  rfl

theorem first_seen_subset (names : List String) (edges : List (String × String × String))
    (h : ∀ e ∈ edges, e.1 ∈ names ∧ e.2.1 ∈ names) : first_seen edges ⊆ names := by
  intro x hx
  obtain ⟨e, he, hxe⟩ := (mem_first_seen edges x).1 hx
  rcases hxe with rfl | rfl
  · exact (h e he).1
  · exact (h e he).2

theorem first_seen_length_le (names : List String) (edges : List (String × String × String))
    (h : ∀ e ∈ edges, e.1 ∈ names ∧ e.2.1 ∈ names) :
    (first_seen edges).length ≤ names.length :=
  (List.subperm_of_subset (first_seen_nodup edges) (first_seen_subset names edges h)).length_le

/-- One round of the loop of `parse_from` on the line of an edge not met
before, with room for its names in the matrix. -/
theorem parse_line_edges (N : Nat) (done : List (String × String × String))
    (e : String × String × String) (st : parse_state) (h : edges_inv N done st)
    (h1 : is_name e.1) (h2 : is_name e.2.1) (h3 : is_digits e.2.2)
    (hv : digits_value e.2.2 < 2 ^ 64)
    (hlen : (first_seen (done ++ [e])).length ≤ N)
    (hnew : ∀ f ∈ done, ¬ ((f.1 = e.1 ∧ f.2.1 = e.2.1) ∨ (f.1 = e.2.1 ∧ f.2.1 = e.1))) :
    ∃ st', parse_line st (render_line e) = .ok st' ∧ edges_inv N (done ++ [e]) st' := by
  obtain ⟨hnames, hvalid, hcount, hentries⟩ := h
  have hA := insert_node_names (first_seen done) st e.1 hnames
  have hB := insert_node_names _ (insert_node st e.1) e.2.1 hA.1
  rw [← first_seen_append_singleton] at hB
  have hdist : (insert_node (insert_node st e.1) e.2.1).distances = st.distances := by
    rw [hB.2, hA.2]
  have hm1 : e.1 ∈ first_seen (done ++ [e]) :=
    (mem_first_seen _ _).2 ⟨e, by simp, Or.inl rfl⟩
  have hm2 : e.2.1 ∈ first_seen (done ++ [e]) :=
    (mem_first_seen _ _).2 ⟨e, by simp, Or.inr rfl⟩
  have hid1 := id_of_names _ _ e.1 hB.1 hm1
  have hid2 := id_of_names _ _ e.2.1 hB.1 hm2
  have hlt : ∀ x, x ∈ first_seen (done ++ [e]) →
      (first_seen (done ++ [e])).indexOf x + 1 < st.distances._node_count := by
    intro x hx
    have := List.indexOf_lt_length.2 hx
    omega
  have hup : st.distances.update ((first_seen (done ++ [e])).indexOf e.1 + 1)
      ((first_seen (done ++ [e])).indexOf e.2.1 + 1) (digits_value e.2.2 % 2 ^ 32) =
      (.ok (), (st.distances.update ((first_seen (done ++ [e])).indexOf e.1 + 1)
        ((first_seen (done ++ [e])).indexOf e.2.1 + 1) (digits_value e.2.2 % 2 ^ 32)).2) := by
    rw [adjacency_matrix.update_ok st.distances hvalid (hlt _ hm1) (hlt _ hm2)]
  have hval := adjacency_matrix.update_valid st.distances hvalid (hlt _ hm1) (hlt _ hm2)
    (digits_value e.2.2 % 2 ^ 32)
  have hent := fun c d hd => @adjacency_matrix.entry_update st.distances hvalid _ _ c d
    (hlt _ hm1) (hlt _ hm2) hd (digits_value e.2.2 % 2 ^ 32)
  refine ⟨{ insert_node (insert_node st e.1) e.2.1 with
    distances := (st.distances.update ((first_seen (done ++ [e])).indexOf e.1 + 1)
      ((first_seen (done ++ [e])).indexOf e.2.1 + 1) (digits_value e.2.2 % 2 ^ 32)).2 }, ?_, ?_⟩
  · unfold parse_line
    rw [regex_match_render_line e h1 h2 h3]
    simp only [stoul_ok e.2.2 hv, hid1, hid2, hdist]
    rw [hup]
  · refine ⟨hB.1, hval.1, hval.2.trans hcount, ?_⟩
    intro f hf
    show adjacency_matrix.entry _ _ _ = _
    rcases List.mem_append.1 hf with hfd | hfe
    · have hf1 : f.1 ∈ first_seen done := (mem_first_seen _ _).2 ⟨f, hfd, Or.inl rfl⟩
      have hf2 : f.2.1 ∈ first_seen done := (mem_first_seen _ _).2 ⟨f, hfd, Or.inr rfl⟩
      have hf1' : f.1 ∈ first_seen (done ++ [e]) :=
        (mem_first_seen _ _).2 ⟨f, hf, Or.inl rfl⟩
      have hf2' : f.2.1 ∈ first_seen (done ++ [e]) :=
        (mem_first_seen _ _).2 ⟨f, hf, Or.inr rfl⟩
      rw [hent _ _ (hlt _ hf2'), if_neg]
      · rw [← hentries f hfd, first_seen_append_singleton,
          indexOf_add_name _ _ _ ((mem_add_name _ _ _).2 (Or.inl hf1)),
          indexOf_add_name _ _ _ hf1,
          indexOf_add_name _ _ _ ((mem_add_name _ _ _).2 (Or.inl hf2)),
          indexOf_add_name _ _ _ hf2]
      · intro hc
        apply hnew f hfd
        rcases hc with ⟨ha, hb⟩ | ⟨ha, hb⟩
        · exact Or.inl ⟨List.indexOf_inj hf1' hm1 |>.1 (by omega),
            List.indexOf_inj hf2' hm2 |>.1 (by omega)⟩
        · exact Or.inr ⟨List.indexOf_inj hf1' hm2 |>.1 (by omega),
            List.indexOf_inj hf2' hm1 |>.1 (by omega)⟩
    · rw [List.mem_singleton] at hfe
      subst hfe
      rw [hent _ _ (hlt _ hm2), if_pos (Or.inl ⟨rfl, rfl⟩)]

/-- A list that names each unordered pair of `N` distinct names once has
`N * (N - 1) / 2` entries. -/
theorem complete_on_length (names : List String) (edges : List (String × String × String))
    (h : complete_on names edges) :
    edges.length = names.length * (names.length - 1) / 2 := by
  obtain ⟨hnd, hin, hall, hpw⟩ := h
  have hmap : (edges.map (fun e => Sym2.mk (e.1, e.2.1))).Nodup := by
    unfold List.Nodup
    rw [List.pairwise_map]
    refine hpw.imp ?_
    intro e f hef heq
    exact hef (Sym2.eq_iff.1 heq)
  have hset : (edges.map (fun e => Sym2.mk (e.1, e.2.1))).toFinset =
      names.toFinset.offDiag.image Sym2.mk := by
    ext z
    simp only [List.mem_toFinset, List.mem_map, Finset.mem_image, Finset.mem_offDiag]
    constructor
    · rintro ⟨e, he, rfl⟩
      exact ⟨(e.1, e.2.1), ⟨(hin e he).1, (hin e he).2.1, (hin e he).2.2⟩, rfl⟩
    · rintro ⟨⟨x, y⟩, ⟨hx, hy, hxy⟩, rfl⟩
      obtain ⟨e, he, hexy⟩ := hall x hx y hy hxy
      refine ⟨e, he, ?_⟩
      rcases hexy with ⟨h1, h2⟩ | ⟨h1, h2⟩
      · rw [h1, h2]
      · rw [h1, h2]
        exact Sym2.eq_swap
  have hcard := congrArg Finset.card hset
  rw [List.toFinset_card_of_nodup hmap, Sym2.card_image_offDiag,
    List.toFinset_card_of_nodup hnd, List.length_map, Nat.choose_two_right] at hcard
  exact hcard

/-- Each of two or more names occurs in a list that names every pair. -/
theorem first_seen_perm (names : List String) (edges : List (String × String × String))
    (h : complete_on names edges) (hN : 2 ≤ names.length) : (first_seen edges).Perm names := by
  obtain ⟨hnd, hin, hall, _⟩ := h
  rw [List.perm_ext_iff_of_nodup (first_seen_nodup edges) hnd]
  intro x
  constructor
  · intro hx
    exact first_seen_subset names edges (fun e he => ⟨(hin e he).1, (hin e he).2.1⟩) hx
  · intro hx
    obtain ⟨y, hy, hxy⟩ : ∃ y ∈ names, x ≠ y := by
      by_contra hc
      push_neg at hc
      have hsub : names ⊆ [x] := by
        intro y hy
        rw [List.mem_singleton]
        exact (hc y hy).symm
      have := (List.subperm_of_subset hnd hsub).length_le
      simp at this
      omega
    obtain ⟨e, he, hexy⟩ := hall x hx y hy hxy
    rw [mem_first_seen]
    rcases hexy with ⟨h1, _⟩ | ⟨_, h2⟩
    · exact ⟨e, he, Or.inl h1.symm⟩
    · exact ⟨e, he, Or.inr h2.symm⟩

/-- The loop of `parse_from` on the lines of the edges `rest`, after those of
`done`: it runs to its end and keeps `edges_inv`. -/
theorem parse_lines_edges (names : List String) :
    ∀ (rest done : List (String × String × String)) (st : parse_state),
    edges_inv names.length done st → complete_on names (done ++ rest) →
    (∀ e ∈ rest, is_name e.1 ∧ is_name e.2.1 ∧ is_digits e.2.2) →
    (∀ e ∈ rest, digits_value e.2.2 < 2 ^ 64) →
    ∃ st', (rest.map render_line).foldlM parse_line st = .ok st' ∧
      edges_inv names.length (done ++ rest) st' := by
  intro rest
  induction rest with
  | nil =>
    intro done st h _ _ _
    exact ⟨st, rfl, by simpa using h⟩
  | cons e rest ih =>
    intro done st h hc hs hv
    have hc' : complete_on names ((done ++ [e]) ++ rest) := by simpa using hc
    have hlen : (first_seen (done ++ [e])).length ≤ names.length := by
      apply first_seen_length_le
      intro f hf
      have := hc.2.1 f (by
        rcases List.mem_append.1 hf with h | h
        · exact List.mem_append_left _ h
        · exact List.mem_append_right _ (by
            rw [List.mem_singleton] at h
            rw [h]
            exact List.mem_cons_self _ _))
      exact ⟨this.1, this.2.1⟩
    have hnew : ∀ f ∈ done,
        ¬ ((f.1 = e.1 ∧ f.2.1 = e.2.1) ∨ (f.1 = e.2.1 ∧ f.2.1 = e.1)) := by
      intro f hf
      exact (List.pairwise_append.1 hc.2.2.2).2.2 f hf e (List.mem_cons_self _ _)
    obtain ⟨st1, hrun1, hinv1⟩ := parse_line_edges names.length done e st h
      (hs e (List.mem_cons_self _ _)).1 (hs e (List.mem_cons_self _ _)).2.1
      (hs e (List.mem_cons_self _ _)).2.2 (hv e (List.mem_cons_self _ _)) hlen hnew
    obtain ⟨st2, hrun2, hinv2⟩ := ih (done ++ [e]) st1 hinv1 hc'
      (fun f hf => hs f (List.mem_cons_of_mem _ hf))
      (fun f hf => hv f (List.mem_cons_of_mem _ hf))
    refine ⟨st2, ?_, by simpa using hinv2⟩
    rw [List.map_cons, List.foldlM_cons, hrun1]
    exact hrun2

/-- The result of `parse_from` on the text of a complete edge list: the call of
the constructor of `graph` on the origin followed by the names in first-seen
order and a matrix of one more row than there are names that holds each
weight, reduced to 32 bits, at the indices of its two names. -/
theorem parse_from_complete (names : List String) (edges : List (String × String × String))
    (hc : complete_on names edges) (hN : 2 ≤ names.length)
    (hs : ∀ e ∈ edges, is_name e.1 ∧ is_name e.2.1 ∧ is_digits e.2.2)
    (hv : ∀ e ∈ edges, digits_value e.2.2 < 2 ^ 64) :
    ∃ M : bhk.adjacency_matrix,
      parse_from (render edges) = graph ("" :: first_seen edges) M ∧
      M.valid ∧ M._node_count = names.length + 1 ∧
      (first_seen edges).length = names.length ∧
      ∀ e ∈ edges,
        M.entry ((first_seen edges).indexOf e.1 + 1) ((first_seen edges).indexOf e.2.1 + 1) =
          digits_value e.2.2 % 2 ^ 32 := by
  have hlen := complete_on_length names edges hc
  have hpos : edges.length ≠ 0 := by
    obtain ⟨K, hK⟩ : ∃ K, names.length = K + 2 := ⟨names.length - 2, by omega⟩
    rw [hlen, hK]
    have h1 : K + 2 - 1 = K + 1 := by omega
    have h2 : 2 ≤ (K + 2) * (K + 1) := by nlinarith
    rw [h1]
    omega
  obtain ⟨hlines, hcnt⟩ := getlines_render edges hs
  have hinit : edges_inv names.length []
      { distances := adjacency_matrix.adjacency_matrix (names.length + 1)
        nodes := [""]
        unique_nodes := []
        id_for_node := [] } := by
    refine ⟨⟨rfl, ?_, ?_, List.nodup_nil⟩, adjacency_matrix.adjacency_matrix_valid _, rfl, ?_⟩
    · intro x
      simp [first_seen]
    · intro x hx
      simp [first_seen] at hx
    · intro e he
      simp at he
  obtain ⟨st, hrun, hinv⟩ := parse_lines_edges names edges [] _ hinit (by simpa using hc) hs hv
  rw [List.nil_append] at hinv
  refine ⟨st.distances, ?_, hinv.2.1, hinv.2.2.1, (first_seen_perm names edges hc hN).length_eq,
    hinv.2.2.2⟩
  unfold parse_from
  rw [hcnt, if_neg hpos, hlines, hlen, inferred_node_count_complete names.length (by omega), hrun]
  simp only
  rw [hinv.1.1]

theorem mem_complete_edges (names : List String) :
    ∀ e ∈ complete_edges names,
      e.1 ∈ names ∧ e.2.1 ∈ names ∧ e.2.2 = "1" ∧ (names.Nodup → e.1 ≠ e.2.1) := by
  induction names with
  | nil =>
    intro e he
    simp [complete_edges] at he
  | cons x rest ih =>
    intro e he
    rw [complete_edges, List.mem_append, List.mem_map] at he
    rcases he with ⟨y, hy, rfl⟩ | he
    · refine ⟨List.mem_cons_self _ _, List.mem_cons_of_mem _ hy, rfl, ?_⟩
      intro hnd hxy
      have hxy' : x = y := hxy
      rw [← hxy'] at hy
      exact (List.nodup_cons.1 hnd).1 hy
    · obtain ⟨h1, h2, h3, h4⟩ := ih e he
      exact ⟨List.mem_cons_of_mem _ h1, List.mem_cons_of_mem _ h2, h3,
        fun hnd => h4 (List.nodup_cons.1 hnd).2⟩

/-- The list `complete_edges names` names each pair of distinct names once. -/
theorem complete_on_complete_edges (names : List String) (hnd : names.Nodup) :
    complete_on names (complete_edges names) := by
  refine ⟨hnd, fun e he => ⟨(mem_complete_edges names e he).1, (mem_complete_edges names e he).2.1,
    (mem_complete_edges names e he).2.2.2 hnd⟩, ?_, ?_⟩
  · induction names with
    | nil =>
      intro x hx
      simp at hx
    | cons a rest ih =>
      have hrest := (List.nodup_cons.1 hnd).2
      intro x hx y hy hxy
      rcases List.mem_cons.1 hx with rfl | hx'
      · rcases List.mem_cons.1 hy with rfl | hy'
        · exact absurd rfl hxy
        · refine ⟨(x, y, "1"), ?_, Or.inl ⟨rfl, rfl⟩⟩
          rw [complete_edges, List.mem_append, List.mem_map]
          exact Or.inl ⟨y, hy', rfl⟩
      · rcases List.mem_cons.1 hy with rfl | hy'
        · refine ⟨(y, x, "1"), ?_, Or.inr ⟨rfl, rfl⟩⟩
          rw [complete_edges, List.mem_append, List.mem_map]
          exact Or.inl ⟨x, hx', rfl⟩
        · obtain ⟨e, he, hexy⟩ := ih hrest x hx' y hy' hxy
          refine ⟨e, ?_, hexy⟩
          rw [complete_edges, List.mem_append]
          exact Or.inr he
  · induction names with
    | nil => exact List.Pairwise.nil
    | cons a rest ih =>
      have hrest := (List.nodup_cons.1 hnd).2
      have ha := (List.nodup_cons.1 hnd).1
      rw [complete_edges, List.pairwise_append]
      refine ⟨?_, ih hrest, ?_⟩
      · rw [List.pairwise_map]
        refine hrest.imp_of_mem ?_
        intro y z _ hz hyz hc
        rcases hc with ⟨_, h⟩ | ⟨h, _⟩
        · exact hyz h
        · have h' : a = z := h
          rw [← h'] at hz
          exact ha hz
      · intro e he f hf
        rw [List.mem_map] at he
        obtain ⟨y, hy, rfl⟩ := he
        obtain ⟨h1, h2, _, _⟩ := mem_complete_edges rest f hf
        intro hc
        rcases hc with ⟨h, _⟩ | ⟨h, _⟩
        · exact ha (by
            have h' : a = f.1 := h
            rw [h']
            exact h1)
        · exact ha (by
            have h' : a = f.2.1 := h
            rw [h']
            exact h2)

theorem names64_nodup : names64.Nodup := by
  unfold names64
  apply List.Nodup.map _ (List.nodup_range 64)
  intro i j h
  have h' := congrArg (fun s => s.toList.length) h
  simpa using h'

theorem names64_is_name : ∀ x ∈ names64, is_name x := by
  intro x hx
  unfold names64 at hx
  rw [List.mem_map] at hx
  obtain ⟨i, _, rfl⟩ := hx
  refine ⟨by simp, ?_⟩
  intro c hc
  have : c = 'a' := List.eq_of_mem_replicate hc
  rw [this]
  decide

theorem inferred_node_count_two : inferred_node_count 2 = 3 := by
  have h : Nat.sqrt (1 + 8 * 2) = 4 := (Nat.eq_sqrt.2 ⟨by decide, by decide⟩).symm
  simp [inferred_node_count, h]

theorem graph_throws (nodes : List String) (distances : bhk.adjacency_matrix)
    (h : nodes.length > size_t_bits) :
    graph nodes distances =
      .error (.runtime_error "can only track as many nodes as bits in std::size_t") := by
  unfold graph
  rw [if_pos h]

end graph

/-! ## Claims on `parse_from` -/

/-- C11 (amended): parser round trip. For every `N ≥ 2` and every edge list
that names each unordered pair of `N` distinct node names exactly once, each
name a word and each weight a decimal numeral below `2 ^ 32`, one
newline-terminated line per edge: when `N ≤ 63`, `parse_from` returns a graph
whose node list has `N + 1` entries, the origin at index 0 followed by the
names in first-seen order, and whose matrix, of size `N + 1`, satisfies
`get(id(a), id(b)) == w` for every input line `a to b = w`, where `id` is the
index in the node list; when `N ≥ 64`, `parse_from` throws the
`std::runtime_error` of the constructor of `graph`. -/
theorem C11_parse_round_trip (names : List String) (edges : List (String × String × String))
    (hc : graph.complete_on names edges) (hN : 2 ≤ names.length)
    (hs : ∀ e ∈ edges, graph.is_name e.1 ∧ graph.is_name e.2.1 ∧ graph.is_digits e.2.2)
    (hw : ∀ e ∈ edges, graph.digits_value e.2.2 < 2 ^ 32) :
    (names.length ≤ 63 →
      ∃ g : graph, graph.parse_from (graph.render edges) = .ok g ∧
        g._nodes = "" :: graph.first_seen edges ∧
        (graph.first_seen edges).Perm names ∧
        g._nodes.length = names.length + 1 ∧
        g._distance._node_count = names.length + 1 ∧
        g._distance.valid ∧
        ∀ e ∈ edges,
          g._distance.get (g._nodes.indexOf e.1) (g._nodes.indexOf e.2.1) =
            .ok (graph.digits_value e.2.2)) ∧
    (64 ≤ names.length →
      graph.parse_from (graph.render edges) =
        .error (.runtime_error "can only track as many nodes as bits in std::size_t")) := by
  obtain ⟨M, hrun, hvalid, hcount, hlen, hent⟩ := graph.parse_from_complete names edges hc hN hs
    (fun e he => Nat.lt_trans (hw e he) (by decide))
  refine ⟨fun hN63 => ?_, fun hN64 => ?_⟩
  · have hg : graph.graph ("" :: graph.first_seen edges) M =
        .ok { _nodes := "" :: graph.first_seen edges, _distance := M } := by
      unfold graph.graph
      rw [if_neg]
      simp only [List.length_cons, hlen, size_t_bits]
      omega
    refine ⟨_, hrun.trans hg, rfl, graph.first_seen_perm names edges hc hN, ?_, hcount, hvalid,
      ?_⟩
    · simp [hlen]
    · intro e he
      have hidx : ∀ x, graph.is_name x → x ∈ graph.first_seen edges →
          ("" :: graph.first_seen edges).indexOf x = (graph.first_seen edges).indexOf x + 1 ∧
          (graph.first_seen edges).indexOf x + 1 < M._node_count := by
        intro x hx hmem
        have hne : x ≠ "" := by
          intro hxe
          apply hx.1
          rw [hxe]
          rfl
        refine ⟨List.indexOf_cons_ne _ hne.symm, ?_⟩
        have := List.indexOf_lt_length.2 hmem
        omega
      have h1 := hidx e.1 (hs e he).1 ((graph.mem_first_seen _ _).2 ⟨e, he, Or.inl rfl⟩)
      have h2 := hidx e.2.1 (hs e he).2.1 ((graph.mem_first_seen _ _).2 ⟨e, he, Or.inr rfl⟩)
      show M.get _ _ = _
      rw [h1.1, h2.1, adjacency_matrix.get_ok M hvalid h1.2 h2.2, hent e he,
        Nat.mod_eq_of_lt (hw e he)]
  · rw [hrun]
    apply graph.graph_throws
    rw [List.length_cons, hlen]
    unfold size_t_bits
    omega

/-- Witness of C11: the three edges of the concrete scenario. -/
theorem C11_parse_round_trip_witness :
    ∃ g : graph, graph.parse_from (graph.render graph.london_edges) = .ok g ∧
      g._nodes = "" :: graph.first_seen graph.london_edges ∧
      (graph.first_seen graph.london_edges).Perm ["London", "Dublin", "Belfast"] ∧
      g._nodes.length = 3 + 1 ∧
      g._distance._node_count = 3 + 1 ∧
      g._distance.valid ∧
      ∀ e ∈ graph.london_edges,
        g._distance.get (g._nodes.indexOf e.1) (g._nodes.indexOf e.2.1) =
          .ok (graph.digits_value e.2.2) :=
  (C11_parse_round_trip ["London", "Dublin", "Belfast"] graph.london_edges
    (by unfold graph.complete_on; decide) (by decide)
    (by unfold graph.is_name graph.is_digits; decide) (by decide)).1 (by decide)

/-- Counterexample to C11 as stated, for `N = 64`: the edge list
`complete_edges names64` names each pair of 64 distinct names once, each name
a word and each weight the numeral 1, and `parse_from` throws from the
constructor of `graph` on its text, as 65 nodes are more than the bits of a
`std::size_t`. -/
theorem C11_round_trip_fails_for_64_names :
    graph.complete_on graph.names64 (graph.complete_edges graph.names64) ∧
    graph.names64.length = 64 ∧
    (∀ e ∈ graph.complete_edges graph.names64,
      graph.is_name e.1 ∧ graph.is_name e.2.1 ∧ graph.is_digits e.2.2 ∧
      graph.digits_value e.2.2 < 2 ^ 32) ∧
    graph.parse_from (graph.render (graph.complete_edges graph.names64)) =
      .error (.runtime_error "can only track as many nodes as bits in std::size_t") := by
  have hc := graph.complete_on_complete_edges graph.names64 graph.names64_nodup
  have hlen : graph.names64.length = 64 := by simp [graph.names64]
  have hs : ∀ e ∈ graph.complete_edges graph.names64,
      graph.is_name e.1 ∧ graph.is_name e.2.1 ∧ graph.is_digits e.2.2 ∧
      graph.digits_value e.2.2 < 2 ^ 32 := by
    intro e he
    obtain ⟨h1, h2, h3, _⟩ := graph.mem_complete_edges graph.names64 e he
    refine ⟨graph.names64_is_name _ h1, graph.names64_is_name _ h2, ?_, ?_⟩
    · rw [h3]
      unfold graph.is_digits
      decide
    · rw [h3]
      decide
  refine ⟨hc, hlen, hs, ?_⟩
  obtain ⟨M, hrun, _, _, hlen', _⟩ := graph.parse_from_complete graph.names64
    (graph.complete_edges graph.names64) hc (by rw [hlen]; decide)
    (fun e he => ⟨(hs e he).1, (hs e he).2.1, (hs e he).2.2.1⟩)
    (fun e he => Nat.lt_trans (hs e he).2.2.2 (by decide))
  rw [hrun]
  apply graph.graph_throws
  rw [List.length_cons, hlen', hlen]
  decide

/-- C14 (failing input): out-of-bounds access is reachable on input in which
every line matches the format. On the two lines `A to B = 1` and `C to D = 2`
the node count is inferred as 3 and the matrix has size 4, the four names get
the indices 1 to 4, and the call `update(3, 4, 2)` fails the assertion of
`index_at`; so does `update(1, 3, 2)` on a matrix of size 3 for the lines
`A to B = 1` and `A to C = 2` when the last has no line break. -/
theorem C14_out_of_bounds_reachable :
    (∀ line ∈ graph.getlines [] "A to B = 1\nC to D = 2\n".toList,
      (graph.regex_match line).isSome = true) ∧
    graph.parse_from "A to B = 1\nC to D = 2\n" = .error .assertion ∧
    (∀ line ∈ graph.getlines [] "A to B = 1\nA to C = 2".toList,
      (graph.regex_match line).isSome = true) ∧
    graph.parse_from "A to B = 1\nA to C = 2" = .error .assertion := by
  refine ⟨by decide, ?_, by decide, ?_⟩
  · unfold graph.parse_from
    have hc : "A to B = 1\nC to D = 2\n".toList.count '\n' = 2 := by decide
    rw [hc, graph.inferred_node_count_two]
    decide
  · unfold graph.parse_from
    have hc : "A to B = 1\nA to C = 2".toList.count '\n' = 1 := by decide
    rw [hc, graph.inferred_node_count_one]
    decide

end bhk
